import Mathlib

/-!
# Chainiac software-update service

A shallow embedding of the release verifier, the timestamp witness code and
the chain store of `swupdate/service/service.go`, `swupdate/service/policy.go`
and `timestamp/timestamp.go`, followed by the properties proved about them.

Conventions of the embedding:

* a Go `[]byte` is a list of bytes (`Fin 256`), a Go `string` is a `String`;
* a Go `int64` is an `Int` together with a range condition where it matters;
* a pointer to a struct is modelled by the struct it points to, and a pointer
  that the code tests against `nil` by an `Option`;
* a run-time panic (index out of range, nil dereference, explicit `panic`)
  is the `error` side of `Except Fault`;
* library and sibling-package functions whose source is not part of the
  files above (`network.Marshal`, PGP verification, the build script,
  `timestamp.ProofTree`) are parameters of the functions that call them.
-/

namespace Swupdate

/-! ## Data model -/

/-- One byte. -/
abbrev Byte := Fin 256

/-- A Go byte slice. -/
abbrev Bytes := List Byte

/-- A hash identifier, `timestamp.HashID`, a byte slice. -/
abbrev HashID := Bytes

/-- Modelled from the spec: the type `timestamp.Proof` is declared outside
the files embedded here; an inclusion proof is a Merkle authentication path, here
the list of hashes along that path. -/
abbrev Proof := List HashID

/-- Run-time failures of the Go program that are not return values. -/
inductive Fault where
  | indexOutOfRange
  | nilDereference
  | readError
  | explicitPanic
  deriving DecidableEq, Repr

/-- Equality of run results is decidable, so concrete runs can be evaluated. -/
instance instDecidableEqExcept {ε α : Type} [DecidableEq ε] [DecidableEq α] :
    DecidableEq (Except ε α)
  | .ok a, .ok b =>
    if h : a = b then isTrue (by rw [h]) else isFalse (fun h' => h (Except.ok.inj h'))
  | .error a, .error b =>
    if h : a = b then isTrue (by rw [h]) else isFalse (fun h' => h (Except.error.inj h'))
  | .ok _, .error _ => isFalse (fun h' => Except.noConfusion h')
  | .error _, .ok _ => isFalse (fun h' => Except.noConfusion h')

/-- The release policy. The struct is declared outside the files embedded here; the
fields are those `policy.go` and `service.go` read and write. -/
structure Policy where
  Name : String
  Version : String
  SourceHash : String
  Threshold : Int
  Keys : List String
  deriving DecidableEq, Repr

/-- A release: a policy, the signatures over it and the build flag. The
struct is declared outside the files embedded here; the fields are those
`verifierFunc` reads. -/
structure Release where
  Policy : Policy
  Signatures : List String
  VerifyBuild : Bool
  deriving DecidableEq, Repr

/-- Modelled from the spec: the struct `skipchain.SkipBlock` is declared
outside the files embedded here. `Hash` and `Data` are the fields this package
reads; `Index` and `BackLink` stand for the block index and the parent link
of the spec's update chain. -/
structure SkipBlock where
  Index : Nat
  BackLink : Option Bytes
  Hash : Bytes
  Data : Bytes
  deriving DecidableEq, Repr

/-- Result of running the external build script: the script's standard
output and whether `cmd.Output()` returned an error. -/
structure CmdResult where
  output : String
  failed : Bool
  deriving DecidableEq, Repr

/-- The functions `verifierFunc` calls outside this package.
`unmarshalBlock` is `network.Unmarshal` followed by the assertion to
`*skipchain.SkipBlock`, `unmarshalRelease` the same for `*Release`;
`marshalPolicy` is `network.Marshal` on the policy; `pgpVerify key bin sig`
tells whether `NewPGPPublic(key).Verify(bin, sig)` returned no error;
`crawler name` is the run of `./crawler.py cli name`. -/
structure Externals where
  unmarshalBlock : Bytes → Option SkipBlock
  unmarshalRelease : Bytes → Option Release
  marshalPolicy : Policy → Option Bytes
  pgpVerify : String → Bytes → String → Bool
  crawler : String → CmdResult

/-! ## Go library helpers -/

/-- Slice indexing `xs[i]` with Go's bounds check. -/
def index {α : Type} (xs : List α) (i : Int) : Except Fault α :=
  if i < 0 then .error .indexOutOfRange
  else
    match xs[i.toNat]? with
    | some x => .ok x
    | none => .error .indexOutOfRange

/-- Fields of a character list separated by `sep`; `cur` holds the current
field reversed. -/
def splitChars (sep : Char) : List Char → List Char → List (List Char)
  | [], cur => [cur.reverse]
  | c :: cs, cur =>
    if c = sep then cur.reverse :: splitChars sep cs []
    else splitChars sep cs (c :: cur)

/-- The call `strings.Split(s, sep)` for the one-character separators the
sources use: all fields between occurrences of `sep`, at least one field. -/
def Split (s : String) (sep : Char) : List String :=
  (splitChars sep s.data []).map String.mk

/-- Scan for `strings.Index`: `pos` is the byte offset of the suffix. -/
def indexFrom (sub : List Char) : List Char → Nat → Int
  | [], pos => if sub = [] then (pos : Int) else -1
  | c :: cs, pos =>
    if sub.isPrefixOf (c :: cs) then (pos : Int)
    else indexFrom sub cs (pos + c.utf8Size)

/-- The call `strings.Index(s, substr)`: byte offset of the first
occurrence of `substr` in `s`, or -1. -/
def Index (s substr : String) : Int :=
  indexFrom substr.data s.data 0

/-! ## The release verifier (`verifierFunc`) -/

/-- The loop `for i, s := range release.Signatures` of `verifierFunc`,
started at index `i`: `ok true` when the loop runs to its end, `ok false`
when a signature fails to verify (the function returns false), a fault when
`policy.Keys[i]` is out of range. -/
def verifySignatures (ext : Externals) (policy : Policy) (policyBin : Bytes) :
    Nat → List String → Except Fault Bool
  | _, [] => .ok true
  | i, s :: rest =>
    match index policy.Keys (i : Int) with
    | .error f => .error f
    | .ok key =>
      if ext.pgpVerify key policyBin s then
        verifySignatures ext policy policyBin (i + 1) rest
      else .ok false

/-- The block `if release.VerifyBuild { ... }` of `verifierFunc`. The
floating-point timings it parses only reach log and monitor calls, so the
embedding keeps the slice accesses that can fault and drops the values. -/
def verifyBuild (ext : Externals) (policy : Policy) : Except Fault Unit :=
  let r := ext.crawler policy.Name
  if r.failed then .ok ()
  else
    let resArray := Split r.output (Char.ofNat 10)
    match index resArray ((resArray.length : Int) - 2) with
    | .error f => .error f
    | .ok res =>
      if Index res "Success" ≥ 0 then
        let times := Split res (Char.ofNat 32)
        match index times 1 with
        | .error f => .error f
        | .ok _ =>
          match index times 2 with
          | .error f => .error f
          | .ok _ =>
            match index times 3 with
            | .error f => .error f
            | .ok _ => .ok ()
      else .ok ()

/-- The function `verifierFunc(msg, data)`: whether the block is valid. -/
def verifierFunc (ext : Externals) (_msg data : Bytes) : Except Fault Bool :=
  match ext.unmarshalBlock data with
  | none => .ok false
  | some sb =>
    match ext.unmarshalRelease sb.Data with
    | none => .ok false
    | some release =>
      let policy := release.Policy
      match ext.marshalPolicy policy with
      | none => .ok false
      | some policyBin =>
        match verifySignatures ext policy policyBin 0 release.Signatures with
        | .error f => .error f
        | .ok false => .ok false
        | .ok true =>
          if release.VerifyBuild then
            match verifyBuild ext policy with
            | .error f => .error f
            | .ok _ => .ok true
          else .ok true

/-! ## Sample data for the release verifier -/

/-- A stand-in signature scheme for concrete runs: the signature of `bin`
under `key` is the key followed by the bytes of `bin` read as characters. -/
def sampleSign (key : String) (bin : Bytes) : String :=
  String.mk (key.data ++ bin.map (fun b => Char.ofNat b.val))

/-- A stand-in for `network.Marshal` on a policy for concrete runs. -/
def sampleMarshal (p : Policy) : Bytes :=
  (p.Name ++ p.Version).data.map (fun c => (Fin.ofNat c.toNat : Fin 256))

/-- Externals for concrete runs: every payload decodes to the block `blk`
carrying `rel`, the signature scheme is `sampleSign` and the build script
yields `run`. -/
def sampleExt (blk : SkipBlock) (rel : Release) (run : CmdResult) : Externals where
  unmarshalBlock := fun _ => some blk
  unmarshalRelease := fun _ => some rel
  marshalPolicy := fun p => some (sampleMarshal p)
  pgpVerify := fun key bin sig => decide (sig = sampleSign key bin)
  crawler := fun _ => run

/-- A release of `p` signed, in order, by the keys `signers`. -/
def signedBy (p : Policy) (signers : List String) (build : Bool) : Release :=
  ⟨p, signers.map (fun k => sampleSign k (sampleMarshal p)), build⟩

/-- A genesis block (index 0, no back link). -/
def genesisBlock : SkipBlock := ⟨0, none, [1], [10]⟩

/-- A block appended after `genesisBlock`. -/
def updateBlock : SkipBlock := ⟨1, some [1], [2], [11]⟩

/-- A build run that exits cleanly and prints nothing. -/
def silentRun : CmdResult := ⟨"", false⟩

/-- Policy of scenario S1: libc 1.0, threshold 3, keys K1 K2 K3. -/
def libcPolicy : Policy :=
  ⟨"libc", "1.0", "H1", 3, ["K1", "K2", "K3"]⟩

/-- Scenario S1: the libc policy signed by K1, K2 and K3. -/
def fullRelease : Release := signedBy libcPolicy ["K1", "K2", "K3"] false

/-- Scenario S2: the libc policy signed by K1 and K2 only. -/
def shortRelease : Release := signedBy libcPolicy ["K1", "K2"] false

/-- Threshold 1 with two keys: a valid first signature, then a forged one. -/
def forgedTailRelease : Release :=
  let p : Policy := ⟨"libc", "1.0", "H1", 1, ["K1", "K2"]⟩
  ⟨p, [sampleSign "K1" (sampleMarshal p), "forged"], false⟩

/-- Threshold 1 with one key and two signatures. -/
def surplusRelease : Release :=
  signedBy ⟨"libc", "1.0", "H1", 1, ["K1"]⟩ ["K1", "K1"] false

/-- Scenario S3: libc 1.1 under the keys K4 K5 K6, signed by those keys. -/
def rotatedRelease : Release :=
  signedBy ⟨"libc", "1.1", "H2", 3, ["K4", "K5", "K6"]⟩ ["K4", "K5", "K6"] false

/-- The S1 release with build verification switched on. -/
def buildRelease : Release := signedBy libcPolicy ["K1", "K2", "K3"] true

/-! ## Fixed-width integers and the pair encoding (`MarshalPair`) -/

/-- The conversion `uint64(t)` of an int64: the value modulo 2^64. -/
def toUint64 (t : Int) : Nat := (t % 2 ^ 64).toNat

/-- The conversion `int64(v)` of a uint64: two's complement. -/
def toInt64 (v : Nat) : Int := if v < 2 ^ 63 then (v : Int) else (v : Int) - 2 ^ 64

/-- The conversion `byte(v)`: the low eight bits. -/
def toByte (v : Nat) : Byte := ⟨v % 256, Nat.mod_lt _ (by decide)⟩

/-- The call `binary.BigEndian.PutUint64`: the eight bytes of `v`, most
significant first. -/
def putUint64BE (v : Nat) : Bytes :=
  [toByte (v >>> 56), toByte (v >>> 48), toByte (v >>> 40), toByte (v >>> 32),
   toByte (v >>> 24), toByte (v >>> 16), toByte (v >>> 8), toByte v]

/-- The call `binary.BigEndian.Uint64` on the eight bytes `b0 .. b7`. -/
def uint64BE (b0 b1 b2 b3 b4 b5 b6 b7 : Byte) : Nat :=
  b7.val ||| b6.val <<< 8 ||| b5.val <<< 16 ||| b4.val <<< 24 ||| b3.val <<< 32 |||
    b2.val <<< 40 ||| b1.val <<< 48 ||| b0.val <<< 56

/-- The function `MarshalPair(root, time)`: `binary.Write` of the int64 in
big-endian order into an empty buffer, then the root appended. -/
def MarshalPair (root : HashID) (time : Int) : Bytes :=
  putUint64BE (toUint64 time) ++ root

/-- The function `UnmarshalPair(buff)`: `binary.Read` of a big-endian int64
from the front of the buffer (a panic when fewer than eight bytes are
there), and the unread rest as the root. -/
def UnmarshalPair : Bytes → Except Fault (HashID × Int)
  | b0 :: b1 :: b2 :: b3 :: b4 :: b5 :: b6 :: b7 :: rest =>
    .ok (rest, toInt64 (uint64BE b0 b1 b2 b3 b4 b5 b6 b7))
  | _ => .error .readError

/-- Value of a byte string read as a big-endian unsigned number. -/
def bigEndianValue (bs : Bytes) : Nat :=
  bs.foldl (fun acc b => acc * 256 + b.val) 0

/-! ## The varint message of the timestamp service (`RecreateSignedMsg`) -/

/-- The loop of `binary.PutUvarint(buf, x)` from position `i`; ten rounds
cover every 64-bit value. -/
def putUvarintLoop : Nat → Bytes → Nat → Nat → Bytes
  | 0, buf, _, _ => buf
  | fuel + 1, buf, i, x =>
    if x ≥ 0x80 then
      putUvarintLoop fuel (buf.set i (toByte (x % 256 ||| 0x80))) (i + 1) (x >>> 7)
    else buf.set i (toByte x)

/-- The call `binary.PutVarint(buf, x)`: zig-zag encoding of the int64, then
the unsigned varint written into `buf`. -/
def PutVarint (buf : Bytes) (x : Int) : Bytes :=
  let ux := (toUint64 x <<< 1) % 2 ^ 64
  let ux := if x < 0 then 2 ^ 64 - 1 - ux else ux
  putUvarintLoop 10 buf 0 ux

/-- The constant `binary.MaxVarintLen64`. -/
def MaxVarintLen64 : Nat := 10

/-- The function `timestampToBytes(t)`. -/
def timestampToBytes (t : Int) : Bytes :=
  PutVarint (List.replicate MaxVarintLen64 0) t

/-- The function `RecreateSignedMsg(treeroot, timestamp)`: `make` returns a
slice of `len(treeroot)+len(timeB)` zero bytes, and both appends add to its
end. -/
def RecreateSignedMsg (treeroot : Bytes) (timestamp : Int) : Bytes :=
  let timeB := timestampToBytes timestamp
  let m : Bytes := List.replicate (treeroot.length + timeB.length) 0
  let m := m ++ treeroot
  let m := m ++ timeB
  m

/-! ## Package time -/

/-- Largest `time.Duration`, in nanoseconds. -/
def maxDuration : Int := 2 ^ 63 - 1

/-- Smallest `time.Duration`, in nanoseconds. -/
def minDuration : Int := -2 ^ 63

/-- The constant `time.Second`, in nanoseconds. -/
def Second : Int := 1000000000

/-- The constant `time.Hour`, in nanoseconds. -/
def Hour : Int := 3600 * Second

/-- Offset between the Unix epoch and the epoch of `time.Time`, seconds. -/
def unixToInternal : Int := 62135596800

/-- Arithmetic on an int64: the result reduced to the 64-bit two's-complement
range. -/
def wrapInt64 (x : Int) : Int := toInt64 (toUint64 x)

/-- Whether the second count of `time.Unix(sec, 0)` fits an int64: a
`time.Time` keeps the seconds since year 1, `sec + unixToInternal`, in an
int64. -/
def unixRepresentable (sec : Int) : Prop := sec + unixToInternal < 2 ^ 63

instance (sec : Int) : Decidable (unixRepresentable sec) :=
  inferInstanceAs (Decidable (sec + unixToInternal < 2 ^ 63))

/-- The call `time.Unix(sec, 0)`. A time value is modelled by the instant it
denotes, in nanoseconds since the Unix epoch. The call stores the second
count `sec + unixToInternal` computed in int64, so the sum wraps: for
`sec ≥ 2^63 - unixToInternal` the value denotes an instant 2^64 seconds
before the one asked for. -/
def timeUnix (sec : Int) : Int :=
  (wrapInt64 (sec + unixToInternal) - unixToInternal) * Second

/-- The call `t.Sub(u)` on the instants two time values denote: the
difference in nanoseconds, or the largest (smallest) duration when the
difference is out of the int64 range of `time.Duration`. -/
def timeSub (t u : Int) : Int :=
  if t - u > maxDuration then maxDuration
  else if t - u < minDuration then minDuration
  else t - u

/-! ## The service state -/

/-- The chain of one package as the service stores it (`SwupChain`). The
struct is declared outside the files embedded here; the fields are those
`service.go` reads and writes. -/
structure SwupChain where
  Root : Option SkipBlock
  Data : SkipBlock
  Release : Release
  deriving DecidableEq, Repr

set_option linter.dupNamespace false in
/-- The stored witness (`Timestamp`). The struct is declared outside the
files embedded here; the fields are those `updateTimestampInfo` writes. -/
structure Timestamp where
  Timestamp : Int
  Root : HashID
  Signature : Bytes
  Proofs : List Proof
  deriving DecidableEq, Repr

/-- A Go `map[string]*SwupChain`: a key occurs once; the order of the
entries stands for the order in which `range` happens to visit them. -/
abbrev ChainMap := AList (fun _ : String => SwupChain)

/-- The struct `storage`. -/
structure storage where
  Timestamp : Option Timestamp
  SwupChainsGenesis : ChainMap
  SwupChains : ChainMap
  Root : Option SkipBlock
  TSInterval : Int

/-- The fields of `Service` read by the functions below. -/
structure Service where
  Storage : storage
  ReasonableTime : Int

/-- The error of `onet.NewClientErrorCode(code, msg)`. -/
structure ClientError where
  code : Nat
  msg : String
  deriving DecidableEq, Repr

/-! ## Ordered package names -/

/-- Order of Go strings: lexicographic on the characters (UTF-8 preserves
the order of code points, so this is the byte-wise order). -/
def strLE (a b : String) : Prop := a.data ≤ b.data

/-- Strict order of Go strings. -/
def strLT (a b : String) : Prop := a.data < b.data

instance : DecidableRel strLE := fun a b => inferInstanceAs (Decidable (a.data ≤ b.data))

instance : DecidableRel strLT := fun a b => inferInstanceAs (Decidable (a.data < b.data))

instance : IsTotal String strLE := ⟨fun a b => le_total a.data b.data⟩

instance : IsTrans String strLE := ⟨fun _ _ _ hab hbc => le_trans hab hbc⟩

instance : IsAntisymm String strLE :=
  ⟨fun _ _ hab hba => String.ext (le_antisymm hab hba)⟩

/-- The call `sort.Strings(keys)`: the slice rearranged in increasing order. -/
def sortStrings (keys : List String) : List String :=
  List.insertionSort strLE keys

/-- The function `getOrderedPackageNames`: the keys of `SwupChains` in the
map's iteration order, then sorted. -/
def getOrderedPackageNames (s : Service) : List String :=
  sortStrings s.Storage.SwupChains.keys

/-- The loop of `orderedLatestSkipblocksID`: `chains[key].Data.Hash` for
each key; a key missing from the map yields a nil chain, whose dereference
panics. -/
def collectHeads (chains : ChainMap) : List String → Except Fault (List HashID)
  | [] => .ok []
  | key :: rest =>
    match chains.lookup key with
    | none => .error .nilDereference
    | some sc =>
      match collectHeads chains rest with
      | .error f => .error f
      | .ok ids => .ok (sc.Data.Hash :: ids)

/-- The function `orderedLatestSkipblocksID`. -/
def orderedLatestSkipblocksID (s : Service) : Except Fault (List HashID) :=
  collectHeads s.Storage.SwupChains (getOrderedPackageNames s)

/-- Head hashes listed by looking each sorted name up in the store. -/
def headsInNameOrder (s : Service) : List HashID :=
  (getOrderedPackageNames s).filterMap
    (fun n => (s.Storage.SwupChains.lookup n).map (fun sc => sc.Data.Hash))

/-! ## Witness verification (`cosiVerify`) -/

/-- The function `cosiVerify(msg)`, run at the clock reading `now`
(nanoseconds since the Unix epoch). `proofTree ids` is
`timestamp.ProofTree(HashFunc(), ids)`: the Merkle root and the proofs. -/
def cosiVerify (proofTree : List HashID → HashID × List Proof) (now : Int)
    (s : Service) (msg : Bytes) : Except Fault Bool :=
  match UnmarshalPair msg with
  | .error f => .error f
  | .ok (signedRoot, signedTime) =>
    if timeSub now (timeUnix signedTime) > s.ReasonableTime then .ok false
    else
      match orderedLatestSkipblocksID s with
      | .error f => .error f
      | .ok ids =>
        let root := (proofTree ids).1
        if ¬ (root = signedRoot) then .ok false
        else .ok true

/-! ## Inclusion proofs (`TimestampProof`, `TimestampProofs`) -/

/-- The loop of `sort.Search(n, f)`: binary search between `i` and `j`. -/
def searchLoop (f : Nat → Bool) : Nat → Nat → Nat → Nat
  | 0, i, _ => i
  | fuel + 1, i, j =>
    if i < j then
      let h := (i + j) / 2
      if !f h then searchLoop f fuel (h + 1) j
      else searchLoop f fuel i h
    else i

/-- The call `sort.Search(n, f)`; the interval halves each round, so `n`
rounds are enough. -/
def Search (n : Nat) (f : Nat → Bool) : Nat := searchLoop f n 0 n

/-- The call `sort.SearchStrings(a, x)`: `Search` with `a[i] >= x`. -/
def SearchStrings (a : List String) (x : String) : Nat :=
  Search a.length (fun i =>
    match a[i]? with
    | some k => decide (strLE x k)
    | none => false)

/-- The loop `for i, s := range keys` of `TimestampProof`: the first index
holding `name`, when there is one. -/
def findName (name : String) : List String → Nat → Option Nat
  | [], _ => none
  | k :: ks, i => if k = name then some i else findName name ks (i + 1)

/-- The client error both proof requests return for an unknown name. -/
def noPackageError : ClientError := ⟨4200, "No package at this name"⟩

/-- The function `TimestampProof`. -/
def TimestampProof (s : Service) (name : String) : Except Fault (Except ClientError Proof) :=
  let keys := getOrderedPackageNames s
  match findName name keys 0 with
  | none => .ok (.error noPackageError)
  | some idx =>
    match s.Storage.Timestamp with
    | none => .error .nilDereference
    | some t =>
      let p := t.Proofs
      if p.length < idx then .error .explicitPanic
      else
        match index p (idx : Int) with
        | .error f => .error f
        | .ok pr => .ok (.ok pr)

/-- The first loop of `TimestampProofs`: the index of each requested name. -/
def searchIndexes (keys : List String) :
    List String → Except Fault (Except ClientError (List Nat))
  | [] => .ok (.ok [])
  | name :: rest =>
    let i := SearchStrings keys name
    match index keys (i : Int) with
    | .error f => .error f
    | .ok k =>
      if k ≠ name then .ok (.error noPackageError)
      else
        match searchIndexes keys rest with
        | .error f => .error f
        | .ok (.error e) => .ok (.error e)
        | .ok (.ok indexes) => .ok (.ok (i :: indexes))

/-- A Go `map[string]timestamp.Proof`. -/
abbrev ProofMap := AList (fun _ : String => Proof)

/-- The second loop of `TimestampProofs`: `proofs[keys[i]] = p[i]`. -/
def collectProofs (keys : List String) (p : List Proof) :
    List Nat → ProofMap → Except Fault ProofMap
  | [], proofs => .ok proofs
  | i :: rest, proofs =>
    match index keys (i : Int) with
    | .error f => .error f
    | .ok name =>
      match index p (i : Int) with
      | .error f => .error f
      | .ok pr => collectProofs keys p rest (proofs.insert name pr)

/-- The function `TimestampProofs`. -/
def TimestampProofs (s : Service) (names : List String) :
    Except Fault (Except ClientError ProofMap) :=
  let keys := getOrderedPackageNames s
  match searchIndexes keys names with
  | .error f => .error f
  | .ok (.error e) => .ok (.error e)
  | .ok (.ok indexes) =>
    match s.Storage.Timestamp with
    | none => .error .nilDereference
    | some t =>
      match collectProofs keys t.Proofs indexes ∅ with
      | .error f => .error f
      | .ok proofs => .ok (.ok proofs)

/-! ## Sample data for the service state -/

/-- A chain holding the block with hash `h` for the package `name`. -/
def sampleChain (name : String) (h : Bytes) : SwupChain :=
  ⟨none, ⟨0, none, h, []⟩, ⟨⟨name, "1.0", "", 0, []⟩, [], false⟩⟩

/-- A store with the packages zlib, bash and libc, entered in that order,
and a witness with one proof per package. -/
def sampleService : Service where
  Storage :=
    { Timestamp := some ⟨1700000000, [9], [8], [[[1]], [[2]], [[3]]]⟩
      SwupChainsGenesis := ∅
      SwupChains :=
        (((∅ : ChainMap).insert "zlib" (sampleChain "zlib" [3])).insert "bash"
          (sampleChain "bash" [1])).insert "libc" (sampleChain "libc" [2])
      Root := none
      TSInterval := 0 }
  ReasonableTime := Hour

/-- The service before any package is stored, with expiry `rt`. -/
def emptyService (rt : Int) : Service where
  Storage :=
    { Timestamp := none
      SwupChainsGenesis := ∅
      SwupChains := ∅
      Root := none
      TSInterval := 0 }
  ReasonableTime := rt

/-- A stand-in for `timestamp.ProofTree` for concrete runs: the root is the
concatenation of the leaves. -/
def sampleProofTree (ids : List HashID) : HashID × List Proof :=
  (ids.flatten, ids.map (fun _ => []))

/-! ## Storing chains (`PropagateSkipBlock`) -/

/-- The function `PropagateSkipBlock(msg)`; the message is `none` when it
is not a `*SwupChain` (the conversion fails and nothing is stored). -/
def PropagateSkipBlock (cs : Service) (msg : Option SwupChain) : Service :=
  match msg with
  | none => cs
  | some sc =>
    let pkg := sc.Release.Policy.Name
    let genesis :=
      if pkg ∈ cs.Storage.SwupChainsGenesis then cs.Storage.SwupChainsGenesis
      else cs.Storage.SwupChainsGenesis.insert pkg sc
    { cs with
      Storage :=
        { cs.Storage with
          SwupChainsGenesis := genesis
          SwupChains := cs.Storage.SwupChains.insert pkg sc } }

/-- A sequence of `PropagateSkipBlock` calls, in order. -/
def propagateAll (cs : Service) (msgs : List (Option SwupChain)) : Service :=
  msgs.foldl PropagateSkipBlock cs

/-- The chains among the propagated messages that are stored under `name`,
in the order of the calls. -/
def chainsFor (name : String) (msgs : List (Option SwupChain)) : List SwupChain :=
  (msgs.filterMap id).filter (fun sc => decide (sc.Release.Policy.Name = name))

/-! ## Chain lookups (`LatestBlock`, `LatestBlocks`, `PackageSC`) -/

/-- The reply `LatestBlockRet`. -/
structure LatestBlockRet where
  Timestamp : Timestamp
  Update : List SkipBlock
  deriving DecidableEq, Repr

/-- The reply `LatestBlocksRetInternal`: the witness of the first chain
added (nil when none was added), the blocks and the lengths. -/
structure LatestBlocksRetInternal where
  Timestamp : Option Timestamp
  Updates : List SkipBlock
  Lengths : List Int
  deriving DecidableEq, Repr

/-- The reply `PackageSCRet`. -/
structure PackageSCRet where
  First : SkipBlock
  Last : SkipBlock
  deriving DecidableEq, Repr

/-- The skipchain client call `GetUpdateChain(root, id)` as the service sees
it: the update chain, or an error. -/
abbrev UpdateChainLookup := Option SkipBlock → Bytes → Except ClientError (List SkipBlock)

/-- The function `LatestBlock`. -/
def LatestBlock (getUpdateChain : UpdateChainLookup) (cs : Service) (lastKnownSB : Bytes) :
    Except ClientError LatestBlockRet :=
  match getUpdateChain cs.Storage.Root lastKnownSB with
  | .error e => .error e
  | .ok update =>
    match cs.Storage.Timestamp with
    | none => .error ⟨4200, "Timestamp-service missing!"⟩
    | some t => .ok ⟨t, update⟩

/-- The loop of `LatestBlocks` over the requested ids, with the variables
`t`, `updates` and `lengths` as accumulator. -/
def latestBlocksLoop (getUpdateChain : UpdateChainLookup) (cs : Service) :
    List Bytes → LatestBlocksRetInternal → Except ClientError LatestBlocksRetInternal
  | [], acc => .ok acc
  | id :: rest, acc =>
    match LatestBlock getUpdateChain cs id with
    | .error e => .error e
    | .ok lb =>
      if lb.Update.length > 1 then
        latestBlocksLoop getUpdateChain cs rest
          ⟨if acc.Timestamp.isNone then some lb.Timestamp else acc.Timestamp,
           acc.Updates ++ lb.Update, acc.Lengths ++ [(lb.Update.length : Int)]⟩
      else latestBlocksLoop getUpdateChain cs rest acc

/-- The function `LatestBlocks`. -/
def LatestBlocks (getUpdateChain : UpdateChainLookup) (cs : Service) (lastKnownSBs : List Bytes) :
    Except ClientError LatestBlocksRetInternal :=
  latestBlocksLoop getUpdateChain cs lastKnownSBs ⟨none, [], []⟩

/-- The update chain the skipchain client returns for `id`, empty when the
lookup fails. -/
def chainFrom (getUpdateChain : UpdateChainLookup) (cs : Service) (id : Bytes) :
    List SkipBlock :=
  match getUpdateChain cs.Storage.Root id with
  | .ok update => update
  | .error _ => []

/-- The function `PackageSC`. -/
def PackageSC (getUpdateChain : UpdateChainLookup) (cs : Service) (packageName : String) :
    Except Fault (Except ClientError PackageSCRet) :=
  match cs.Storage.SwupChains.lookup packageName with
  | none => .ok (.error ⟨4200, "Does not exist."⟩)
  | some sc =>
    match LatestBlock getUpdateChain cs sc.Data.Hash with
    | .error e => .ok (.error e)
    | .ok lbRet =>
      let update := lbRet.Update
      match cs.Storage.SwupChainsGenesis.lookup packageName with
      | none => .error .nilDereference
      | some genesis =>
        match index update ((update.length : Int) - 1) with
        | .error f => .error f
        | .ok last => .ok (.ok ⟨genesis.Data, last⟩)

/-- Modelled from the spec: the skipchain ledger is kept by code outside the
files embedded here. Block ids are hashes of the block body, so two blocks
of the ledger with the same hash are the same block. -/
def ContentAddressed (ledger : List SkipBlock) : Prop :=
  ∀ b ∈ ledger, ∀ b' ∈ ledger, b.Hash = b'.Hash → b = b'

instance (ledger : List SkipBlock) : Decidable (ContentAddressed ledger) :=
  inferInstanceAs (Decidable (∀ b ∈ ledger, ∀ b' ∈ ledger, b.Hash = b'.Hash → b = b'))

/-- Modelled from the spec: the update chain the skipchain returns for a
known block runs from that block to the head of its chain: it is not empty
and holds blocks of the ledger whose index is at least the known block's
(the block index increases along a chain). -/
def UpdateChainFrom (ledger : List SkipBlock) (known : SkipBlock)
    (update : List SkipBlock) : Prop :=
  update ≠ [] ∧ ∀ b ∈ update, b ∈ ledger ∧ known.Index ≤ b.Index

instance (ledger : List SkipBlock) (known : SkipBlock) (update : List SkipBlock) :
    Decidable (UpdateChainFrom ledger known update) :=
  inferInstanceAs (Decidable (update ≠ [] ∧ ∀ b ∈ update, b ∈ ledger ∧ known.Index ≤ b.Index))

/-! ## Publishing a witness (`updateTimestampInfo`, `timestamp`) -/

/-- The function `updateTimestampInfo(rootID, proofs, ts, sig)`. -/
def updateTimestampInfo (s : Service) (rootID : HashID) (proofs : List Proof) (ts : Int)
    (sig : Bytes) : Service :=
  let t : Timestamp :=
    match s.Storage.Timestamp with
    | none => ⟨0, [], [], []⟩
    | some t => t
  { s with
    Storage :=
      { s.Storage with
        Timestamp := some { t with Timestamp := ts, Root := rootID, Signature := sig,
                                   Proofs := proofs } } }

/-- The function `cosiSign(msg)`: it dereferences `s.Storage.Root` for the
roster (a nil root panics) and runs the collective signing round
`signRound` for that root, which panics when the protocol cannot be set
up. -/
def cosiSign (signRound : SkipBlock → Bytes → Except Fault Bytes) (s : Service)
    (msg : Bytes) : Except Fault Bytes :=
  match s.Storage.Root with
  | none => .error .nilDereference
  | some root => signRound root msg

/-- The function `timestamp(time)`, with `time.Unix()` given in seconds. -/
def timestamp (proofTree : List HashID → HashID × List Proof)
    (signRound : SkipBlock → Bytes → Except Fault Bytes) (s : Service) (time : Int) :
    Except Fault Service :=
  match orderedLatestSkipblocksID s with
  | .error f => .error f
  | .ok ids =>
    let tree := proofTree ids
    let msg := MarshalPair tree.1 time
    match cosiSign signRound s msg with
    | .error f => .error f
    | .ok signature => .ok (updateTimestampInfo s tree.1 tree.2 time signature)

/-- The arguments of one call of `updateTimestampInfo`. -/
structure Publication where
  rootID : HashID
  proofs : List Proof
  ts : Int
  sig : Bytes
  deriving DecidableEq, Repr

/-- A sequence of `updateTimestampInfo` calls, in order. -/
def publishAll (s : Service) (pubs : List Publication) : Service :=
  pubs.foldl (fun s p => updateTimestampInfo s p.rootID p.proofs p.ts p.sig) s

/-! ## Release ingestion (`NewDebianRelease`) -/

/-- The struct `DebianRelease`; the parsed time is kept as the value
`time.Parse` returned. -/
structure DebianRelease where
  Snapshot : String
  Time : Int
  Policy : Policy
  Signatures : List String
  Binaries : List String
  BinariesSize : Int
  deriving DecidableEq, Repr

/-- The errors `NewDebianRelease` returns, by origin. -/
inductive ReleaseError where
  | fieldCount (msg : String)
  | timeParse
  | marshal
  | sign
  deriving DecidableEq, Repr

/-- The library calls of `NewDebianRelease` on keys of type `Key`:
`timeParse s` is `time.Parse("20060102150405", s)`, `atoi` is
`strconv.Atoi`, `marshal` is `network.Marshal` on the policy,
`ArmorPublic` and `Sign` are the methods of `*PGP`. -/
structure IngestLib (Key : Type) where
  timeParse : String → Option Int
  atoi : String → Option Int
  marshal : Policy → Option Bytes
  ArmorPublic : Key → String
  Sign : Key → Bytes → Option String

/-- The loop `for k := 0; k < policy.Threshold; k++` of `NewDebianRelease`
from `k` on, `n` rounds left: the global `policyKeys` grows by the global
`key` where it is too short, and the armored key is appended to the
policy's keys. -/
def collectKeys {Key : Type} (lib : IngestLib Key) (key : Key) :
    Nat → Nat → List Key → List String → Except Fault (List Key × List String)
  | 0, _, policyKeys, keys => .ok (policyKeys, keys)
  | n + 1, k, policyKeys, keys =>
    let policyKeys := if k ≥ policyKeys.length then policyKeys ++ [key] else policyKeys
    match index policyKeys (k : Int) with
    | .error f => .error f
    | .ok pgp => collectKeys lib key n (k + 1) policyKeys (keys ++ [lib.ArmorPublic pgp])

/-- The loop `for i := range policy.Keys` of `NewDebianRelease` from `i`
on, `n` rounds left: one signature per key, or the signing error. -/
def collectSignatures {Key : Type} (lib : IngestLib Key) (policyKeys : List Key)
    (policyBin : Bytes) : Nat → Nat → List String → Except Fault (Option (List String))
  | 0, _, sigs => .ok (some sigs)
  | n + 1, i, sigs =>
    match index policyKeys (i : Int) with
    | .error f => .error f
    | .ok pgp =>
      match lib.Sign pgp policyBin with
      | none => .ok none
      | some sig => collectSignatures lib policyKeys policyBin n (i + 1) (sigs ++ [sig])

/-- The function `NewDebianRelease(line, dir, keys)`; the globals `key` and
`policyKeys` are passed in and the new value of `policyKeys` is returned
with the release. The branch guarded by `if false` is left out. -/
def NewDebianRelease {Key : Type} (lib : IngestLib Key) (key : Key) (policyKeys : List Key)
    (line _dir : String) (keys : Int) :
    Except Fault (Except ReleaseError (DebianRelease × List Key)) :=
  let entries := Split line (Char.ofNat 44)
  match entries with
  | [e0, e1, e2, e3, e4, e5] =>
    match lib.timeParse e0 with
    | none => .ok (.error .timeParse)
    | some t =>
      let bsize :=
        match lib.atoi e5 with
        | some n => n
        | none => 0
      match collectKeys lib key keys.toNat 0 policyKeys [] with
      | .error f => .error f
      | .ok (policyKeys, pubs) =>
        let policy : Policy := ⟨e1, e2, e3, keys, pubs⟩
        match lib.marshal policy with
        | none => .ok (.error .marshal)
        | some policyBin =>
          match collectSignatures lib policyKeys policyBin policy.Keys.length 0 [] with
          | .error f => .error f
          | .ok none => .ok (.error .sign)
          | .ok (some sigs) =>
            .ok (.ok (⟨e0, t, policy, sigs, Split e4 (Char.ofNat 32), bsize⟩, policyKeys))
  | _ => .ok (.error (.fieldCount ("Should have five entries" ++ line)))

/-! ## Sample data for chains, witnesses and ingestion -/

/-- The genesis chain of libc: block 0 with hash 1. -/
def libcGenesis : SwupChain := ⟨none, ⟨0, none, [1], [10]⟩, fullRelease⟩

/-- The chain of libc after one update: block 1 with hash 2. -/
def libcUpdate : SwupChain := ⟨none, ⟨1, some [1], [2], [11]⟩, rotatedRelease⟩

/-- A chain of another package. -/
def zlibGenesis : SwupChain :=
  ⟨none, ⟨0, none, [3], [12]⟩, signedBy ⟨"zlib", "1.0", "H3", 1, ["K1"]⟩ ["K1"] false⟩

/-- A skipchain holding the two libc blocks and the zlib block: the chain
from a block's hash to the head of its chain. -/
def sampleLookup : UpdateChainLookup := fun _ id =>
  if id = [1] then .ok [libcGenesis.Data, libcUpdate.Data]
  else if id = [2] then .ok [libcUpdate.Data]
  else if id = [3] then .ok [zlibGenesis.Data]
  else .error ⟨4200, "unknown block"⟩

/-- The witness used in concrete runs. -/
def sampleWitness : Timestamp := ⟨1700000000, [9], [8], [[[1]], [[2]]]⟩

/-- The store after libc was created and updated and zlib created, as the
propagations alone leave it: no witness is published. -/
def propagatedService : Service :=
  propagateAll (emptyService Hour) [some libcGenesis, some zlibGenesis, none, some libcUpdate]

/-- The same store with a witness published. -/
def updatedService : Service :=
  { propagatedService with
    Storage := { propagatedService.Storage with Timestamp := some sampleWitness } }

/-- A stand-in for `time.Parse` with the layout 20060102150405 for concrete
runs: fourteen digits are accepted. -/
def sampleTimeParse (s : String) : Option Int :=
  if s.data.length = 14 ∧ s.data.all (fun c => decide (48 ≤ c.toNat ∧ c.toNat ≤ 57)) then some 0
  else none

/-- A stand-in for `strconv.Atoi` for concrete runs: decimal digits only. -/
def sampleAtoi (s : String) : Option Int :=
  if s.data ≠ [] ∧ s.data.all (fun c => decide (48 ≤ c.toNat ∧ c.toNat ≤ 57)) then
    some (s.data.foldl (fun acc c => acc * 10 + ((c.toNat : Int) - 48)) 0)
  else none

/-- Library stand-ins for concrete runs, with keys named by strings. -/
def sampleLib : IngestLib String where
  timeParse := sampleTimeParse
  atoi := sampleAtoi
  marshal := fun p => some (sampleMarshal p)
  ArmorPublic := fun k => k
  Sign := fun k bin => some (sampleSign k bin)

/-! # Properties -/

/-! ## Release verifier -/

theorem index_natCast {α : Type} (xs : List α) (n : Nat) :
    index xs (n : Int) =
      match xs[n]? with
      | some x => .ok x
      | none => .error .indexOutOfRange := by
  simp [index]

/-- The signature loop ends with true exactly when every remaining signature
has a key at its index and verifies under it. -/
theorem verifySignatures_true_iff (ext : Externals) (p : Policy) (bin : Bytes)
    (sigs : List String) (off : Nat) :
    verifySignatures ext p bin off sigs = .ok true ↔
      ∀ (j : Nat) (s : String), sigs[j]? = some s →
        ∃ key, p.Keys[off + j]? = some key ∧ ext.pgpVerify key bin s = true := by
  induction sigs generalizing off with
  | nil => simp [verifySignatures]
  | cons s0 rest ih =>
    rw [verifySignatures, index_natCast]
    constructor
    · intro h j s hj
      cases hk : p.Keys[off]? with
      | none => simp [hk] at h
      | some k0 =>
        simp only [hk] at h
        by_cases hv : ext.pgpVerify k0 bin s0 = true
        · simp only [hv, if_true] at h
          cases j with
          | zero =>
            simp only [List.getElem?_cons_zero, Option.some.injEq] at hj
            subst hj
            exact ⟨k0, by simpa using hk, hv⟩
          | succ j =>
            obtain ⟨key, hkey, hver⟩ := (ih (off + 1)).1 h j s (by simpa using hj)
            exact ⟨key, by rw [← hkey]; congr 1; omega, hver⟩
        · simp [hv] at h
    · intro h
      obtain ⟨k0, hk0, hv0⟩ := h 0 s0 (by simp)
      simp only [Nat.add_zero] at hk0
      simp only [hk0, hv0, if_true]
      apply (ih (off + 1)).2
      intro j s hj
      obtain ⟨key, hkey, hver⟩ := h (j + 1) s (by simpa using hj)
      exact ⟨key, by rw [← hkey]; congr 1; omega, hver⟩

/-- The signature loop returns false as soon as one signature that has a key
at its index fails to verify. -/
theorem verifySignatures_false_of_bad (ext : Externals) (p : Policy) (bin : Bytes)
    (sigs : List String) (off j : Nat) (s key : String)
    (hs : sigs[j]? = some s) (hk : p.Keys[off + j]? = some key)
    (hbad : ext.pgpVerify key bin s = false) :
    verifySignatures ext p bin off sigs = .ok false := by
  induction sigs generalizing off j with
  | nil => simp at hs
  | cons s0 rest ih =>
    rw [verifySignatures, index_natCast]
    cases j with
    | zero =>
      simp only [List.getElem?_cons_zero, Option.some.injEq] at hs
      subst hs
      simp only [Nat.add_zero] at hk
      simp [hk, hbad]
    | succ j =>
      have hlt : off < p.Keys.length := by
        obtain ⟨h, _⟩ := List.getElem?_eq_some.1 hk
        omega
      rw [List.getElem?_eq_getElem hlt]
      by_cases hv : ext.pgpVerify p.Keys[off] bin s0 = true
      · simp only [hv, if_true]
        exact ih (off + 1) j (by simpa using hs) (by rw [← hk]; congr 1; omega)
      · simp [hv]

/-- Unfolding of `verifierFunc` once the block, the release and the
marshalled policy are known. -/
theorem verifierFunc_decoded (ext : Externals) (msg data : Bytes) (sb : SkipBlock)
    (rel : Release) (bin : Bytes)
    (hb : ext.unmarshalBlock data = some sb) (hr : ext.unmarshalRelease sb.Data = some rel)
    (hm : ext.marshalPolicy rel.Policy = some bin) :
    verifierFunc ext msg data =
      match verifySignatures ext rel.Policy bin 0 rel.Signatures with
      | .error f => .error f
      | .ok false => .ok false
      | .ok true =>
        if rel.VerifyBuild then
          match verifyBuild ext rel.Policy with
          | .error f => .error f
          | .ok _ => .ok true
        else .ok true := by
  simp only [verifierFunc, hb, hr, hm]

/-- C1 (as amended): a release that `verifierFunc` accepts has a policy that
marshals, carries no more signatures than the policy has keys, and every
signature it carries at an index i verifies under `Keys[i]` over the
marshalled policy. The threshold does not occur in the conclusion. -/
theorem verifierFunc_accept_sound (ext : Externals) (msg data : Bytes) (sb : SkipBlock)
    (rel : Release)
    (hb : ext.unmarshalBlock data = some sb) (hr : ext.unmarshalRelease sb.Data = some rel)
    (hacc : verifierFunc ext msg data = .ok true) :
    ∃ bin, ext.marshalPolicy rel.Policy = some bin ∧
      rel.Signatures.length ≤ rel.Policy.Keys.length ∧
      ∀ (i : Nat) (s : String), rel.Signatures[i]? = some s →
        ∃ key, rel.Policy.Keys[i]? = some key ∧ ext.pgpVerify key bin s = true := by
  cases hm : ext.marshalPolicy rel.Policy with
  | none => simp [verifierFunc, hb, hr, hm] at hacc
  | some bin =>
    rw [verifierFunc_decoded ext msg data sb rel bin hb hr hm] at hacc
    have hsig : verifySignatures ext rel.Policy bin 0 rel.Signatures = .ok true := by
      cases hv : verifySignatures ext rel.Policy bin 0 rel.Signatures with
      | error f => simp [hv] at hacc
      | ok b =>
        cases b with
        | false => simp [hv] at hacc
        | true => rfl
    have hall := (verifySignatures_true_iff ext rel.Policy bin rel.Signatures 0).1 hsig
    refine ⟨bin, rfl, ?_, ?_⟩
    · by_contra hlen
      have hlt : rel.Policy.Keys.length < rel.Signatures.length := by omega
      obtain ⟨key, hkey, _⟩ := hall rel.Policy.Keys.length
        (rel.Signatures[rel.Policy.Keys.length]) (List.getElem?_eq_getElem hlt)
      simp at hkey
    · intro i s hi
      simpa using hall i s hi

/-- Witness of C1 (as amended) on the fully signed libc release. -/
theorem verifierFunc_accept_sound_witness :
    ∃ bin, (sampleExt genesisBlock fullRelease silentRun).marshalPolicy fullRelease.Policy = some bin ∧
      fullRelease.Signatures.length ≤ fullRelease.Policy.Keys.length ∧
      ∀ (i : Nat) (s : String), fullRelease.Signatures[i]? = some s →
        ∃ key, fullRelease.Policy.Keys[i]? = some key ∧
          (sampleExt genesisBlock fullRelease silentRun).pgpVerify key bin s = true :=
  verifierFunc_accept_sound (sampleExt genesisBlock fullRelease silentRun) [1] [10]
    genesisBlock fullRelease rfl rfl (by decide)

/-- Counterexample to C1 as stated (scenario S2): the libc release with
threshold 3 and only two signatures is accepted. -/
theorem verifierFunc_accepts_short_release :
    shortRelease.Policy.Threshold = 3 ∧ shortRelease.Signatures.length = 2 ∧
      shortRelease.Signatures[2]? = none ∧
      verifierFunc (sampleExt genesisBlock shortRelease silentRun) [1] [10] = .ok true := by
  decide

/-- C2 (as amended): with the policy marshalled, a release in which every
signature carried has a key at its index and verifies under it is accepted
when build verification is off or the build step completes; and a signature
at any index (also beyond the threshold) that has a key at its index and
fails to verify makes `verifierFunc` reject. -/
theorem verifierFunc_checks_every_signature (ext : Externals) (msg data : Bytes)
    (sb : SkipBlock) (rel : Release) (bin : Bytes)
    (hb : ext.unmarshalBlock data = some sb) (hr : ext.unmarshalRelease sb.Data = some rel)
    (hm : ext.marshalPolicy rel.Policy = some bin) :
    ((∀ (i : Nat) (s : String), rel.Signatures[i]? = some s →
        ∃ key, rel.Policy.Keys[i]? = some key ∧ ext.pgpVerify key bin s = true) →
      (rel.VerifyBuild = false ∨ verifyBuild ext rel.Policy = .ok ()) →
      verifierFunc ext msg data = .ok true) ∧
    (∀ (i : Nat) (s key : String), rel.Signatures[i]? = some s → rel.Policy.Keys[i]? = some key →
      ext.pgpVerify key bin s = false → verifierFunc ext msg data = .ok false) := by
  rw [verifierFunc_decoded ext msg data sb rel bin hb hr hm]
  constructor
  · intro hall hbuild
    have hsig : verifySignatures ext rel.Policy bin 0 rel.Signatures = .ok true :=
      (verifySignatures_true_iff ext rel.Policy bin rel.Signatures 0).2
        (fun j s hj => by simpa using hall j s hj)
    rcases hbuild with hoff | hdone
    · simp [hsig, hoff]
    · simp [hsig, hdone]
  · intro i s key hs hk hbad
    have hsig := verifySignatures_false_of_bad ext rel.Policy bin rel.Signatures 0 i s key hs
      (by simpa using hk) hbad
    simp [hsig]

/-- Witness of C2 (as amended) on the fully signed libc release. -/
theorem verifierFunc_checks_every_signature_witness :
    ((∀ (i : Nat) (s : String), fullRelease.Signatures[i]? = some s →
        ∃ key, fullRelease.Policy.Keys[i]? = some key ∧
          (sampleExt genesisBlock fullRelease silentRun).pgpVerify key
            (sampleMarshal fullRelease.Policy) s = true) →
      (fullRelease.VerifyBuild = false ∨
        verifyBuild (sampleExt genesisBlock fullRelease silentRun) fullRelease.Policy = .ok ()) →
      verifierFunc (sampleExt genesisBlock fullRelease silentRun) [1] [10] = .ok true) ∧
    (∀ (i : Nat) (s key : String), fullRelease.Signatures[i]? = some s → fullRelease.Policy.Keys[i]? = some key →
      (sampleExt genesisBlock fullRelease silentRun).pgpVerify key
        (sampleMarshal fullRelease.Policy) s = false →
      verifierFunc (sampleExt genesisBlock fullRelease silentRun) [1] [10] = .ok false) :=
  verifierFunc_checks_every_signature (sampleExt genesisBlock fullRelease silentRun) [1] [10]
    genesisBlock fullRelease (sampleMarshal fullRelease.Policy) rfl rfl rfl

/-- Counterexample to C2 as stated: with threshold 1, two keys and a valid
first signature, a forged signature at index 1 makes `verifierFunc` reject;
and with threshold 1, one key and a valid first signature, a second
signature makes the key lookup fail. -/
theorem verifierFunc_rejects_forged_tail :
    (1 ≤ forgedTailRelease.Policy.Threshold ∧
      forgedTailRelease.Policy.Threshold ≤ forgedTailRelease.Policy.Keys.length ∧
      (sampleExt genesisBlock forgedTailRelease silentRun).pgpVerify "K1"
        (sampleMarshal forgedTailRelease.Policy) (forgedTailRelease.Signatures.headD "") = true ∧
      verifierFunc (sampleExt genesisBlock forgedTailRelease silentRun) [1] [10] = .ok false) ∧
    (1 ≤ surplusRelease.Policy.Threshold ∧
      surplusRelease.Policy.Threshold ≤ surplusRelease.Policy.Keys.length ∧
      (sampleExt genesisBlock surplusRelease silentRun).pgpVerify "K1"
        (sampleMarshal surplusRelease.Policy) (surplusRelease.Signatures.headD "") = true ∧
      verifierFunc (sampleExt genesisBlock surplusRelease silentRun) [1] [10] =
        .error .indexOutOfRange) := by
  decide

/-- C3 (as amended): the verdict of `verifierFunc` is determined by the
release the block carries: two blocks carrying the same release, whatever
their index, back link, hash or the message passed along, get the same
verdict. Nothing of the chain the block is appended to is consulted. -/
theorem verifierFunc_depends_on_release_only (ext : Externals) (msg msg' data data' : Bytes)
    (sb sb' : SkipBlock) (rel : Release)
    (hb : ext.unmarshalBlock data = some sb) (hb' : ext.unmarshalBlock data' = some sb')
    (hr : ext.unmarshalRelease sb.Data = some rel)
    (hr' : ext.unmarshalRelease sb'.Data = some rel) :
    verifierFunc ext msg data = verifierFunc ext msg' data' := by
  simp only [verifierFunc, hb, hb', hr, hr']

/-- Witness of C3 (as amended): the rotated release as genesis block and as
update block. -/
theorem verifierFunc_depends_on_release_only_witness :
    verifierFunc
        { sampleExt genesisBlock rotatedRelease silentRun with
          unmarshalBlock := fun d => if d = [11] then some updateBlock else some genesisBlock }
        [2] [11] =
      verifierFunc
        { sampleExt genesisBlock rotatedRelease silentRun with
          unmarshalBlock := fun d => if d = [11] then some updateBlock else some genesisBlock }
        [1] [10] :=
  verifierFunc_depends_on_release_only _ [2] [1] [11] [10] updateBlock genesisBlock
    rotatedRelease (by decide) (by decide) rfl rfl

/-- Counterexample to C3 as stated (scenario S3): after the libc release
under K1 K2 K3, the update block carrying libc 1.1 under the disjoint keys
K4 K5 K6, signed by those keys, is accepted. -/
theorem verifierFunc_accepts_disjoint_rotation :
    (∀ k ∈ rotatedRelease.Policy.Keys, k ∉ fullRelease.Policy.Keys) ∧
      rotatedRelease.Policy.Name = fullRelease.Policy.Name ∧
      updateBlock.BackLink = some genesisBlock.Hash ∧
      verifierFunc (sampleExt genesisBlock fullRelease silentRun) genesisBlock.Hash
        genesisBlock.Data = .ok true ∧
      verifierFunc (sampleExt updateBlock rotatedRelease silentRun) updateBlock.Hash
        updateBlock.Data = .ok true := by
  decide

/-- When the build step completes, the build flag does not change the
verdict. -/
theorem verifierFunc_flag_irrelevant_of_build_ok (ext : Externals) (msg data : Bytes)
    (sb : SkipBlock) (rel : Release)
    (hb : ext.unmarshalBlock data = some sb) (hr : ext.unmarshalRelease sb.Data = some rel)
    (hdone : verifyBuild ext rel.Policy = .ok ()) :
    verifierFunc ext msg data =
      verifierFunc { ext with unmarshalRelease := fun _ => some { rel with VerifyBuild := false } }
        msg data := by
  simp only [verifierFunc, hb, hr, hdone]
  cases ext.marshalPolicy rel.Policy with
  | none => rfl
  | some bin =>
    simp only
    have hsame : ∀ off sigs,
        verifySignatures
          { ext with unmarshalRelease := fun _ => some { rel with VerifyBuild := false } }
          rel.Policy bin off sigs = verifySignatures ext rel.Policy bin off sigs := by
      intro off sigs
      induction sigs generalizing off with
      | nil => rfl
      | cons s0 rest ih => simp only [verifySignatures, ih]
    rw [hsame]
    cases verifySignatures ext rel.Policy bin 0 rel.Signatures with
    | error f => rfl
    | ok b => cases b <;> simp

/-- C4 (the code at the failing inputs): for the fully signed libc release,
`verifierFunc` returns true with the build flag off; with the flag on and a
build script that exits cleanly printing nothing, or printing a `Success`
line with fewer than four fields, it faults on a slice index instead of
returning a boolean. -/
theorem verifierFunc_build_flag_faults :
    verifierFunc (sampleExt genesisBlock fullRelease silentRun) [1] [10] = .ok true ∧
      verifierFunc (sampleExt genesisBlock buildRelease silentRun) [1] [10] =
        .error .indexOutOfRange ∧
      verifierFunc (sampleExt genesisBlock buildRelease ⟨"Success 1.5\n", false⟩) [1] [10] =
        .error .indexOutOfRange ∧
      verifierFunc (sampleExt genesisBlock buildRelease ⟨"log\nSuccess 1.5 0.5 0.2\n", false⟩)
        [1] [10] = .ok true := by
  decide

/-! ## Pair encoding -/

/-- Bit-or of a value below 2^k with a value shifted left by k is their sum. -/
theorem lor_shiftLeft_of_lt (x b k : Nat) (hx : x < 2 ^ k) :
    x ||| b <<< k = 2 ^ k * b + x := by
  rw [Nat.lor_comm, Nat.shiftLeft_eq, Nat.mul_comm b, ← Nat.mul_add_lt_is_or hx]

/-- The big-endian reading of eight bytes as a sum of weighted bytes. -/
theorem uint64BE_eq_sum (b0 b1 b2 b3 b4 b5 b6 b7 : Byte) :
    uint64BE b0 b1 b2 b3 b4 b5 b6 b7 =
      b0.val * 2 ^ 56 + b1.val * 2 ^ 48 + b2.val * 2 ^ 40 + b3.val * 2 ^ 32 +
        b4.val * 2 ^ 24 + b5.val * 2 ^ 16 + b6.val * 2 ^ 8 + b7.val := by
  have h0 := b0.isLt
  have h1 := b1.isLt
  have h2 := b2.isLt
  have h3 := b3.isLt
  have h4 := b4.isLt
  have h5 := b5.isLt
  have h6 := b6.isLt
  have h7 := b7.isLt
  unfold uint64BE
  rw [lor_shiftLeft_of_lt _ _ 8 (by omega), lor_shiftLeft_of_lt _ _ 16 (by omega),
    lor_shiftLeft_of_lt _ _ 24 (by omega), lor_shiftLeft_of_lt _ _ 32 (by omega),
    lor_shiftLeft_of_lt _ _ 40 (by omega), lor_shiftLeft_of_lt _ _ 48 (by omega),
    lor_shiftLeft_of_lt _ _ 56 (by omega)]
  omega

/-- The unsigned image of an integer is its residue modulo 2^64. -/
theorem toUint64_cast (t : Int) : ((toUint64 t : Nat) : Int) = t % 2 ^ 64 :=
  Int.toNat_of_nonneg (Int.emod_nonneg _ (by norm_num))

/-- C6: for every root and every int64 timestamp, `UnmarshalPair` applied to
`MarshalPair(root, t)` returns the pair `(root, t)`. -/
theorem UnmarshalPair_MarshalPair (root : HashID) (t : Int)
    (hlo : -2 ^ 63 ≤ t) (hhi : t < 2 ^ 63) :
    UnmarshalPair (MarshalPair root t) = .ok (root, t) := by
  simp only [MarshalPair, putUint64BE, List.cons_append, List.nil_append, UnmarshalPair]
  rw [uint64BE_eq_sum]
  have hv := toUint64_cast t
  generalize toUint64 t = v at hv ⊢
  have hval : toInt64 ((toByte (v >>> 56)).val * 2 ^ 56 + (toByte (v >>> 48)).val * 2 ^ 48 +
      (toByte (v >>> 40)).val * 2 ^ 40 + (toByte (v >>> 32)).val * 2 ^ 32 +
      (toByte (v >>> 24)).val * 2 ^ 24 + (toByte (v >>> 16)).val * 2 ^ 16 +
      (toByte (v >>> 8)).val * 2 ^ 8 + (toByte v).val) = t := by
    simp only [toByte, Nat.shiftRight_eq_div_pow, toInt64]
    split <;> omega
  rw [hval]

/-- Witness of C6 at the root 1 2 3 and a negative timestamp. -/
theorem UnmarshalPair_MarshalPair_witness :
    UnmarshalPair (MarshalPair [1, 2, 3] (-1700000000)) = .ok ([1, 2, 3], -1700000000) :=
  UnmarshalPair_MarshalPair [1, 2, 3] (-1700000000) (by decide) (by decide)

/-- C7: for every root and every int64 timestamp, `MarshalPair(root, t)` has
length 8 + len(root); its first eight bytes, read as a big-endian unsigned
number, are the two's-complement image of t (t itself when t ≥ 0, t + 2^64
when t < 0); and what follows the eighth byte is exactly the root. -/
theorem MarshalPair_layout (root : HashID) (t : Int)
    (hlo : -2 ^ 63 ≤ t) (hhi : t < 2 ^ 63) :
    (MarshalPair root t).length = 8 + root.length ∧
      ((MarshalPair root t).take 8).length = 8 ∧
      (bigEndianValue ((MarshalPair root t).take 8) : Int) = (if t < 0 then t + 2 ^ 64 else t) ∧
      (MarshalPair root t).drop 8 = root := by
  have hv := toUint64_cast t
  simp only [MarshalPair, putUint64BE, List.cons_append, List.nil_append, List.length_cons,
    List.take_succ_cons, List.take_zero, List.drop_succ_cons, List.drop_zero, List.length_nil,
    bigEndianValue, List.foldl_cons, List.foldl_nil]
  generalize toUint64 t = v at hv ⊢
  refine ⟨by omega, trivial, ?_, trivial⟩
  simp only [toByte, Nat.shiftRight_eq_div_pow]
  split <;> omega

/-- Witness of C7 at the root 1 2 3 and a negative timestamp. -/
theorem MarshalPair_layout_witness :
    (MarshalPair [1, 2, 3] (-2)).length = 8 + ([1, 2, 3] : HashID).length ∧
      ((MarshalPair [1, 2, 3] (-2)).take 8).length = 8 ∧
      (bigEndianValue ((MarshalPair [1, 2, 3] (-2)).take 8) : Int) =
        (if (-2 : Int) < 0 then -2 + 2 ^ 64 else -2) ∧
      (MarshalPair [1, 2, 3] (-2)).drop 8 = [1, 2, 3] :=
  MarshalPair_layout [1, 2, 3] (-2) (by decide) (by decide)

/-! ## The varint message -/

/-- Writing a varint does not change the length of the buffer. -/
theorem putUvarintLoop_length (fuel : Nat) (buf : Bytes) (i x : Nat) :
    (putUvarintLoop fuel buf i x).length = buf.length := by
  induction fuel generalizing buf i x with
  | zero => rfl
  | succ fuel ih =>
    rw [putUvarintLoop]
    split
    · rw [ih, List.length_set]
    · rw [List.length_set]

/-- The timestamp buffer always has ten bytes. -/
theorem timestampToBytes_length (t : Int) : (timestampToBytes t).length = 10 := by
  simp [timestampToBytes, PutVarint, putUvarintLoop_length, MaxVarintLen64]

/-- C8 (what the code does): `RecreateSignedMsg` starts with
len(treeroot) + 10 zero bytes, followed by the tree root and the ten-byte
varint buffer; its length is 2 * (len(treeroot) + 10), so it never equals
treeroot followed by the buffer. At the tree root 7 and timestamp 1 the
result has 22 bytes, the root at position 11. -/
theorem RecreateSignedMsg_has_zero_header (treeroot : Bytes) (timestamp : Int) :
    RecreateSignedMsg treeroot timestamp =
        List.replicate (treeroot.length + 10) 0 ++ treeroot ++ timestampToBytes timestamp ∧
      (RecreateSignedMsg treeroot timestamp).length = 2 * (treeroot.length + 10) ∧
      RecreateSignedMsg treeroot timestamp ≠ treeroot ++ timestampToBytes timestamp ∧
      RecreateSignedMsg [7] 1 =
        [0, 0, 0, 0, 0, 0, 0, 0, 0, 0, 0, 7, 2, 0, 0, 0, 0, 0, 0, 0, 0, 0] := by
  have hlen := timestampToBytes_length timestamp
  have heq : RecreateSignedMsg treeroot timestamp =
      List.replicate (treeroot.length + 10) 0 ++ treeroot ++ timestampToBytes timestamp := by
    simp only [RecreateSignedMsg, hlen]
  refine ⟨heq, ?_, ?_, by decide⟩
  · rw [heq]
    simp only [List.length_append, List.length_replicate, hlen]
    omega
  · intro h
    have := congrArg List.length h
    rw [heq] at this
    simp only [List.length_append, List.length_replicate, hlen] at this
    omega

/-! ## Ordered package names -/

/-- The sorted slice is increasing. -/
theorem sortStrings_sorted (keys : List String) : (sortStrings keys).Sorted strLE :=
  List.sorted_insertionSort strLE keys

/-- Sorting rearranges the slice. -/
theorem sortStrings_perm (keys : List String) : (sortStrings keys).Perm keys :=
  List.perm_insertionSort strLE keys

/-- Sorting a slice without repetition gives a strictly increasing slice. -/
theorem sortStrings_strict (keys : List String) (hnd : keys.Nodup) :
    (sortStrings keys).Sorted strLT := by
  have hs := sortStrings_sorted keys
  have hn : (sortStrings keys).Nodup := (sortStrings_perm keys).nodup_iff.2 hnd
  have hboth := List.Pairwise.and hs hn
  refine hboth.imp ?_
  intro a b hab
  exact lt_of_le_of_ne hab.1 (fun h => hab.2 (String.ext h))

/-- Two rearrangements of one slice sort to the same slice. -/
theorem sortStrings_eq_of_perm (xs ys : List String) (h : xs.Perm ys) :
    sortStrings xs = sortStrings ys :=
  List.eq_of_perm_of_sorted
    (((sortStrings_perm xs).trans h).trans (sortStrings_perm ys).symm)
    (sortStrings_sorted xs) (sortStrings_sorted ys)

/-- The ordered names are exactly the names of the store. -/
theorem mem_getOrderedPackageNames (s : Service) (n : String) :
    n ∈ getOrderedPackageNames s ↔ n ∈ s.Storage.SwupChains := by
  rw [getOrderedPackageNames, (sortStrings_perm _).mem_iff, AList.mem_keys]

/-- The ordered names are strictly increasing. -/
theorem getOrderedPackageNames_strict (s : Service) :
    (getOrderedPackageNames s).Sorted strLT :=
  sortStrings_strict _ s.Storage.SwupChains.keys_nodup

/-- The ordered names do not repeat. -/
theorem getOrderedPackageNames_nodup (s : Service) : (getOrderedPackageNames s).Nodup :=
  (sortStrings_perm _).nodup_iff.2 s.Storage.SwupChains.keys_nodup

/-- The head loop succeeds on names of the store and lists their head
hashes in the order of the names. -/
theorem collectHeads_ok (chains : ChainMap) (keys : List String)
    (hall : ∀ k ∈ keys, k ∈ chains) :
    collectHeads chains keys =
      .ok (keys.filterMap (fun n => (chains.lookup n).map (fun sc => sc.Data.Hash))) := by
  induction keys with
  | nil => rfl
  | cons k rest ih =>
    have hk : k ∈ chains := hall k (List.mem_cons_self _ _)
    obtain ⟨sc, hsc⟩ := Option.isSome_iff_exists.1 (AList.lookup_isSome.2 hk)
    rw [collectHeads, hsc, ih (fun k' hk' => hall k' (List.mem_cons_of_mem _ hk'))]
    simp [hsc]

/-- The function `orderedLatestSkipblocksID` returns the head hashes in the
order of the sorted names. -/
theorem orderedLatestSkipblocksID_ok (s : Service) :
    orderedLatestSkipblocksID s = .ok (headsInNameOrder s) :=
  collectHeads_ok _ _ (fun k hk => (mem_getOrderedPackageNames s k).1 hk)

/-- Position by position, the listed head hashes belong to the listed names. -/
theorem headsInNameOrder_getElem (chains : ChainMap) (keys : List String)
    (hall : ∀ k ∈ keys, k ∈ chains) (i : Nat) (name : String) (hi : keys[i]? = some name) :
    ∃ sc, chains.lookup name = some sc ∧
      (keys.filterMap (fun n => (chains.lookup n).map (fun sc => sc.Data.Hash)))[i]? =
        some sc.Data.Hash := by
  induction keys generalizing i with
  | nil => simp at hi
  | cons k rest ih =>
    have hk : k ∈ chains := hall k (List.mem_cons_self _ _)
    obtain ⟨sc, hsc⟩ := Option.isSome_iff_exists.1 (AList.lookup_isSome.2 hk)
    cases i with
    | zero =>
      simp only [List.getElem?_cons_zero, Option.some.injEq] at hi
      subst hi
      exact ⟨sc, hsc, by simp [List.filterMap_cons, hsc]⟩
    | succ i =>
      obtain ⟨sc', hsc', hget⟩ :=
        ih (fun k' hk' => hall k' (List.mem_cons_of_mem _ hk')) i (by simpa using hi)
      exact ⟨sc', hsc', by simpa [List.filterMap_cons, hsc] using hget⟩

/-- The list of head hashes is as long as the list of names. -/
theorem headsInNameOrder_length (chains : ChainMap) (keys : List String)
    (hall : ∀ k ∈ keys, k ∈ chains) :
    (keys.filterMap (fun n => (chains.lookup n).map (fun sc => sc.Data.Hash))).length =
      keys.length := by
  induction keys with
  | nil => rfl
  | cons k rest ih =>
    have hk : k ∈ chains := hall k (List.mem_cons_self _ _)
    obtain ⟨sc, hsc⟩ := Option.isSome_iff_exists.1 (AList.lookup_isSome.2 hk)
    simp [List.filterMap_cons, hsc, ih (fun k' hk' => hall k' (List.mem_cons_of_mem _ hk'))]

/-- C9: for every store, `getOrderedPackageNames` is strictly increasing in
the lexicographic order, holds exactly the names of the store, each once
(as many names as the store has packages), and is the same for every
iteration order of the map; `orderedLatestSkipblocksID` returns one id per
name, the i-th being the head hash of the chain stored under the i-th name. -/
theorem ordered_names_and_heads (s : Service) :
    (getOrderedPackageNames s).Sorted strLT ∧
      (getOrderedPackageNames s).Nodup ∧
      (∀ n : String, n ∈ getOrderedPackageNames s ↔ n ∈ s.Storage.SwupChains) ∧
      (getOrderedPackageNames s).length = s.Storage.SwupChains.keys.length ∧
      (∀ s' : Service, s'.Storage.SwupChains.entries.Perm s.Storage.SwupChains.entries →
        getOrderedPackageNames s' = getOrderedPackageNames s) ∧
      ∃ ids, orderedLatestSkipblocksID s = .ok ids ∧
        ids.length = (getOrderedPackageNames s).length ∧
        ∀ (i : Nat) (name : String), (getOrderedPackageNames s)[i]? = some name →
          ∃ sc, s.Storage.SwupChains.lookup name = some sc ∧ ids[i]? = some sc.Data.Hash := by
  have hmem : ∀ k ∈ getOrderedPackageNames s, k ∈ s.Storage.SwupChains :=
    fun k hk => (mem_getOrderedPackageNames s k).1 hk
  refine ⟨getOrderedPackageNames_strict s, getOrderedPackageNames_nodup s,
    mem_getOrderedPackageNames s, (sortStrings_perm _).length_eq, ?_, ?_⟩
  · intro s' hperm
    exact sortStrings_eq_of_perm _ _ (hperm.map Sigma.fst)
  · exact ⟨headsInNameOrder s, orderedLatestSkipblocksID_ok s,
      headsInNameOrder_length _ _ hmem,
      fun i name hi => headsInNameOrder_getElem _ _ hmem i name hi⟩

/-! ## Witness verification -/

/-- A message of at least eight bytes decodes. -/
theorem UnmarshalPair_of_length (msg : Bytes) (h8 : 8 ≤ msg.length) :
    ∃ root ts, UnmarshalPair msg = .ok (root, ts) ∧ -2 ^ 63 ≤ ts ∧ ts < 2 ^ 63 := by
  match msg, h8 with
  | b0 :: b1 :: b2 :: b3 :: b4 :: b5 :: b6 :: b7 :: rest, _ =>
    refine ⟨rest, _, rfl, ?_⟩
    rw [uint64BE_eq_sum]
    have h0 := b0.isLt
    have h1 := b1.isLt
    have h2 := b2.isLt
    have h3 := b3.isLt
    have h4 := b4.isLt
    have h5 := b5.isLt
    have h6 := b6.isLt
    have h7 := b7.isLt
    simp only [toInt64]
    split <;> omega

/-- The saturated difference compares with an expiry below the largest
duration as the exact difference does. -/
theorem timeSub_le_iff (t u rt : Int) (hlo : minDuration ≤ rt) (hhi : rt < maxDuration) :
    timeSub t u ≤ rt ↔ t - u ≤ rt := by
  unfold timeSub
  split
  · omega
  · split <;> omega

/-- Within the int64 range, wrapping leaves a value unchanged. -/
theorem wrapInt64_of_range (x : Int) (hlo : -2 ^ 63 ≤ x) (hhi : x < 2 ^ 63) :
    wrapInt64 x = x := by
  have hv := toUint64_cast x
  unfold wrapInt64 toInt64
  generalize toUint64 x = v at hv ⊢
  split <;> omega

/-- From 2^63 up to 2^64, wrapping subtracts 2^64. -/
theorem wrapInt64_of_overflow (x : Int) (hlo : 2 ^ 63 ≤ x) (hhi : x < 2 ^ 64) :
    wrapInt64 x = x - 2 ^ 64 := by
  have hv := toUint64_cast x
  unfold wrapInt64 toInt64
  generalize toUint64 x = v at hv ⊢
  split <;> omega

/-- For a representable int64 second count `time.Unix` denotes the instant
asked for. -/
theorem timeUnix_of_representable (ts : Int) (hlo : -2 ^ 63 ≤ ts)
    (hrep : unixRepresentable ts) : timeUnix ts = ts * Second := by
  unfold unixRepresentable unixToInternal at hrep
  unfold timeUnix
  rw [wrapInt64_of_range _ (by unfold unixToInternal; omega) (by unfold unixToInternal; omega)]
  congr 1
  omega

/-- For an int64 second count that is not representable `time.Unix` denotes
an instant 2^64 seconds earlier. -/
theorem timeUnix_of_wrapped (ts : Int) (hhi : ts < 2 ^ 63) (hrep : ¬ unixRepresentable ts) :
    timeUnix ts = (ts - 2 ^ 64) * Second := by
  unfold unixRepresentable unixToInternal at hrep
  unfold timeUnix
  rw [wrapInt64_of_overflow _ (by unfold unixToInternal; omega) (by unfold unixToInternal; omega)]
  congr 1
  omega

/-- C5 (as amended): a message of at least eight bytes decodes to a pair
(root, ts), and `cosiVerify` returns a boolean: true exactly when the
duration `time.Sub` computes from `time.Unix(ts, 0)` to now is at most
ReasonableTime and root equals the Merkle root computed over the head hashes
of the store in the order of the sorted names. When the second count of ts
fits the int64 of a time value (ts + 62135596800 < 2^63) and ReasonableTime
is below the largest duration, that is: true exactly when now − ts is at
most ReasonableTime and the root matches. When the second count does not
fit, the clock reads a time after the epoch and ReasonableTime is below the
largest duration, `cosiVerify` returns false. -/
theorem cosiVerify_iff (proofTree : List HashID → HashID × List Proof) (now : Int)
    (s : Service) (msg : Bytes) (h8 : 8 ≤ msg.length) :
    ∃ root ts, UnmarshalPair msg = .ok (root, ts) ∧
      cosiVerify proofTree now s msg =
        .ok (decide (timeSub now (timeUnix ts) ≤ s.ReasonableTime ∧
          root = (proofTree (headsInNameOrder s)).1)) ∧
      (unixRepresentable ts → minDuration ≤ s.ReasonableTime →
        s.ReasonableTime < maxDuration →
        (cosiVerify proofTree now s msg = .ok true ↔
          now - ts * Second ≤ s.ReasonableTime ∧
            root = (proofTree (headsInNameOrder s)).1)) ∧
      (¬ unixRepresentable ts → 0 ≤ now → s.ReasonableTime < maxDuration →
        cosiVerify proofTree now s msg = .ok false) := by
  obtain ⟨root, ts, hdec, htlo, hthi⟩ := UnmarshalPair_of_length msg h8
  refine ⟨root, ts, hdec, ?_⟩
  have hrun : cosiVerify proofTree now s msg =
      .ok (decide (timeSub now (timeUnix ts) ≤ s.ReasonableTime ∧
        root = (proofTree (headsInNameOrder s)).1)) := by
    simp only [cosiVerify, hdec, orderedLatestSkipblocksID_ok]
    by_cases hexp : timeSub now (timeUnix ts) > s.ReasonableTime
    · have hn : ¬ timeSub now (timeUnix ts) ≤ s.ReasonableTime := by omega
      simp [hexp, hn]
    · have hle : timeSub now (timeUnix ts) ≤ s.ReasonableTime := by omega
      by_cases hroot : (proofTree (headsInNameOrder s)).1 = root
      · simp [hexp, hle, hroot]
      · have hroot' : ¬ root = (proofTree (headsInNameOrder s)).1 := fun h => hroot h.symm
        simp [hexp, hle, hroot, hroot']
  refine ⟨hrun, fun hrep hlo hhi => ?_, fun hrep hnow hhi => ?_⟩
  · rw [hrun, timeUnix_of_representable ts htlo hrep,
      ← timeSub_le_iff now (ts * Second) s.ReasonableTime hlo hhi]
    simp
  · rw [hrun, timeUnix_of_wrapped ts hthi hrep]
    have hgt : ¬ timeSub now ((ts - 2 ^ 64) * Second) ≤ s.ReasonableTime := by
      unfold timeSub
      unfold maxDuration at hhi ⊢
      unfold Second
      have h1 : now - (ts - 2 ^ 64) * 1000000000 > 2 ^ 63 - 1 := by omega
      rw [if_pos h1]
      omega
    have hdec' : decide (timeSub now ((ts - 2 ^ 64) * Second) ≤ s.ReasonableTime ∧
        root = (proofTree (headsInNameOrder s)).1) = false :=
      decide_eq_false (fun h => hgt h.1)
    rw [hdec']

/-- Witness of C5 (as amended): the sample store, a witness 100 seconds old. -/
theorem cosiVerify_iff_witness :
    ∃ root ts, UnmarshalPair (MarshalPair [1, 2, 3] 1700000000) = .ok (root, ts) ∧
      cosiVerify sampleProofTree (1700000100 * Second) sampleService
          (MarshalPair [1, 2, 3] 1700000000) =
        .ok (decide (timeSub (1700000100 * Second) (timeUnix ts) ≤
            sampleService.ReasonableTime ∧
          root = (sampleProofTree (headsInNameOrder sampleService)).1)) ∧
      (unixRepresentable ts → minDuration ≤ sampleService.ReasonableTime →
        sampleService.ReasonableTime < maxDuration →
        (cosiVerify sampleProofTree (1700000100 * Second) sampleService
            (MarshalPair [1, 2, 3] 1700000000) = .ok true ↔
          1700000100 * Second - ts * Second ≤ sampleService.ReasonableTime ∧
            root = (sampleProofTree (headsInNameOrder sampleService)).1)) ∧
      (¬ unixRepresentable ts → 0 ≤ 1700000100 * Second →
        sampleService.ReasonableTime < maxDuration →
        cosiVerify sampleProofTree (1700000100 * Second) sampleService
          (MarshalPair [1, 2, 3] 1700000000) = .ok false) :=
  cosiVerify_iff sampleProofTree (1700000100 * Second) sampleService
    (MarshalPair [1, 2, 3] 1700000000) (by decide)

/-- Counterexample to C5 as stated. With ReasonableTime one hour, the sample
store and a clock reading of 1700000100 seconds, the message carrying the
store's Merkle root and the timestamp 2^63 − 1 has now − ts far below
ReasonableTime and a matching root, yet `cosiVerify` returns false: the
second count of `time.Unix` wraps and the duration saturates. And with
ReasonableTime the largest duration, a witness over the empty store stamped
10^10 seconds before the epoch is accepted at 1.8 * 10^9 seconds, although
now − ts exceeds ReasonableTime. -/
theorem cosiVerify_differs_from_exact_difference :
    (8 ≤ (MarshalPair [1, 2, 3] (2 ^ 63 - 1)).length ∧
      UnmarshalPair (MarshalPair [1, 2, 3] (2 ^ 63 - 1)) = .ok ([1, 2, 3], 2 ^ 63 - 1) ∧
      sampleService.ReasonableTime = Hour ∧
      1700000100 * Second - (2 ^ 63 - 1) * Second ≤ sampleService.ReasonableTime ∧
      ([1, 2, 3] : HashID) = (sampleProofTree (headsInNameOrder sampleService)).1 ∧
      cosiVerify sampleProofTree (1700000100 * Second) sampleService
        (MarshalPair [1, 2, 3] (2 ^ 63 - 1)) = .ok false) ∧
    (8 ≤ (MarshalPair [] (-10000000000)).length ∧
      UnmarshalPair (MarshalPair [] (-10000000000)) = .ok ([], -10000000000) ∧
      (emptyService maxDuration).ReasonableTime <
        1800000000 * Second - (-10000000000) * Second ∧
      cosiVerify sampleProofTree (1800000000 * Second) (emptyService maxDuration)
        (MarshalPair [] (-10000000000)) = .ok true) :=
  ⟨⟨by decide, by decide, by decide, by decide, by decide, by decide⟩,
    ⟨by decide, by decide, by decide, by decide⟩⟩

/-! ## Inclusion proofs -/

/-- Binary search on a predicate that stays true once true: the result
splits the range into a false part and a true part. -/
theorem searchLoop_spec (f : Nat → Bool) (n : Nat)
    (hmono : ∀ a b, a ≤ b → b < n → f a = true → f b = true) (fuel i j : Nat)
    (hij : i ≤ j) (hjn : j ≤ n) (hfuel : j - i ≤ fuel)
    (hlow : ∀ k, k < i → f k = false) (hhigh : ∀ k, j ≤ k → k < n → f k = true) :
    (∀ k, k < searchLoop f fuel i j → f k = false) ∧
      (∀ k, searchLoop f fuel i j ≤ k → k < n → f k = true) := by
  induction fuel generalizing i j with
  | zero =>
    have : i = j := by omega
    subst this
    exact ⟨hlow, hhigh⟩
  | succ fuel ih =>
    rw [searchLoop]
    by_cases hlt : i < j
    · simp only [hlt, if_true]
      have hh1 : i ≤ (i + j) / 2 := by omega
      have hh2 : (i + j) / 2 < j := by omega
      cases hf : f ((i + j) / 2) with
      | false =>
        simp only [Bool.not_false, if_true]
        apply ih ((i + j) / 2 + 1) j (by omega) hjn (by omega) _ hhigh
        intro k hk
        cases hfk : f k with
        | false => rfl
        | true =>
          have := hmono k ((i + j) / 2) (by omega) (by omega) hfk
          rw [hf] at this
          exact absurd this (by decide)
      | true =>
        simp only [Bool.not_true, Bool.false_eq_true, if_false]
        apply ih i ((i + j) / 2) hh1 (by omega) (by omega) hlow
        intro k hk hkn
        exact hmono _ k hk hkn hf
    · simp only [hlt, if_false]
      have : i = j := by omega
      subst this
      exact ⟨hlow, hhigh⟩

/-- On a strictly increasing slice `SearchStrings` returns the position of a
string that occurs in it. -/
theorem SearchStrings_eq (keys : List String) (hs : keys.Sorted strLT) (i : Nat)
    (name : String) (hi : keys[i]? = some name) : SearchStrings keys name = i := by
  obtain ⟨hlt, hget⟩ := List.getElem?_eq_some.1 hi
  have hpair := List.pairwise_iff_getElem.1 hs
  have hval : ∀ k (hk : k < keys.length),
      (match keys[k]? with
        | some key => decide (strLE name key)
        | none => false) = decide (i ≤ k) := by
    intro k hk
    rw [List.getElem?_eq_getElem hk]
    simp only
    by_cases hik : i ≤ k
    · have hle : strLE name keys[k] := by
        rcases Nat.lt_or_eq_of_le hik with h | h
        · have := hpair i k hlt hk h
          rw [hget] at this
          exact le_of_lt this
        · subst h
          rw [hget]
          exact le_refl name.data
      simp [hle, hik]
    · have hki : k < i := by omega
      have := hpair k i hk hlt hki
      rw [hget] at this
      have hnle : ¬ strLE name keys[k] := not_le_of_lt this
      simp [hnle, hik]
  have hspec := searchLoop_spec
    (fun k => match keys[k]? with
      | some key => decide (strLE name key)
      | none => false) keys.length
    (by
      intro a b hab hb ha
      have ha' := hval a (by omega)
      have hb' := hval b hb
      simp only at ha ha' hb' ⊢
      rw [hb']
      rw [ha'] at ha
      simp only [decide_eq_true_eq] at ha ⊢
      omega)
    keys.length 0 keys.length (Nat.zero_le _) (le_refl _) (by omega)
    (fun k hk => absurd hk (Nat.not_lt_zero k)) (fun k hk hkn => absurd hkn (by omega))
  obtain ⟨hfalse, htrue⟩ := hspec
  unfold SearchStrings Search
  by_contra hne
  rcases Nat.lt_or_gt_of_ne hne with h | h
  · have hr : searchLoop (fun k => match keys[k]? with
        | some key => decide (strLE name key)
        | none => false) keys.length 0 keys.length < keys.length := by omega
    have h1 := htrue _ (le_refl _) hr
    have h2 := hval _ hr
    simp only at h1 h2
    rw [h2] at h1
    simp only [decide_eq_true_eq] at h1
    omega
  · have h1 := hfalse i h
    have h2 := hval i hlt
    simp only at h1 h2
    rw [h2] at h1
    simp at h1

/-- The scan of `TimestampProof` finds every string of the slice, at an
index holding it. -/
theorem findName_of_mem (name : String) (keys : List String) (off : Nat)
    (hmem : name ∈ keys) :
    ∃ i, findName name keys off = some (off + i) ∧ keys[i]? = some name := by
  induction keys generalizing off with
  | nil => simp at hmem
  | cons k rest ih =>
    rw [findName]
    by_cases hk : k = name
    · exact ⟨0, by simp [hk], by simp [hk]⟩
    · have hrest : name ∈ rest := by
        rcases List.mem_cons.1 hmem with h | h
        · exact absurd h.symm hk
        · exact h
      obtain ⟨i, hfind, hget⟩ := ih (off + 1) hrest
      exact ⟨i + 1, by simp only [hk, if_false, hfind]; congr 1; omega, by simpa using hget⟩

/-- In a slice without repetition a string has one position. -/
theorem index_unique (keys : List String) (hnd : keys.Nodup) (i j : Nat) (name : String)
    (hi : keys[i]? = some name) (hj : keys[j]? = some name) : i = j :=
  List.getElem?_inj (List.getElem?_eq_some.1 hi).1 hnd (hi.trans hj.symm)

/-- The first loop of `TimestampProofs` succeeds on names of the slice, and
every index it returns holds one of the requested names, every requested
name being held by one of the indexes. -/
theorem searchIndexes_ok (keys : List String) (hs : keys.Sorted strLT) (names : List String)
    (hall : ∀ n ∈ names, n ∈ keys) :
    ∃ indexes, searchIndexes keys names = .ok (.ok indexes) ∧
      (∀ i ∈ indexes, ∃ n ∈ names, keys[i]? = some n) ∧
      (∀ n ∈ names, ∃ i ∈ indexes, keys[i]? = some n) := by
  induction names with
  | nil => exact ⟨[], rfl, by simp, by simp⟩
  | cons n rest ih =>
    obtain ⟨indexes, hrest, h1, h2⟩ := ih (fun m hm => hall m (List.mem_cons_of_mem _ hm))
    obtain ⟨i, hi⟩ := List.getElem?_of_mem (hall n (List.mem_cons_self _ _))
    have hsearch := SearchStrings_eq keys hs i n hi
    refine ⟨i :: indexes, ?_, ?_, ?_⟩
    · rw [searchIndexes]
      simp only [hsearch, index_natCast, hi, hrest, ne_eq, not_true_eq_false, if_false]
    · intro j hj
      rcases List.mem_cons.1 hj with h | h
      · exact ⟨n, List.mem_cons_self _ _, by rw [h]; exact hi⟩
      · obtain ⟨m, hm, hget⟩ := h1 j h
        exact ⟨m, List.mem_cons_of_mem _ hm, hget⟩
    · intro m hm
      rcases List.mem_cons.1 hm with h | h
      · exact ⟨i, List.mem_cons_self _ _, by rw [h]; exact hi⟩
      · obtain ⟨j, hj, hget⟩ := h2 m h
        exact ⟨j, List.mem_cons_of_mem _ hj, hget⟩

/-- The second loop of `TimestampProofs` succeeds on indexes within both
slices; afterwards the map holds, under the name at each index, the proof at
that index, and is unchanged under every other name. -/
theorem collectProofs_ok (keys : List String) (hnd : keys.Nodup) (p : List Proof)
    (indexes : List Nat) (proofs : ProofMap)
    (hin : ∀ i ∈ indexes, i < keys.length ∧ i < p.length) :
    ∃ result, collectProofs keys p indexes proofs = .ok result ∧
      (∀ i ∈ indexes, ∀ n : String, keys[i]? = some n → result.lookup n = p[i]?) ∧
      (∀ n : String, (∀ i ∈ indexes, keys[i]? ≠ some n) →
        result.lookup n = proofs.lookup n) := by
  induction indexes generalizing proofs with
  | nil => exact ⟨proofs, rfl, by simp, fun _ _ => rfl⟩
  | cons i rest ih =>
    obtain ⟨hik, hip⟩ := hin i (List.mem_cons_self _ _)
    obtain ⟨result, hrun, h1, h2⟩ := ih (proofs.insert keys[i] p[i])
      (fun j hj => hin j (List.mem_cons_of_mem _ hj))
    refine ⟨result, ?_, ?_, ?_⟩
    · rw [collectProofs]
      simp only [index_natCast, List.getElem?_eq_getElem hik, List.getElem?_eq_getElem hip, hrun]
    · intro j hj n hn
      rcases List.mem_cons.1 hj with h | h
      · subst h
        by_cases hex : ∃ k ∈ rest, keys[k]? = some n
        · obtain ⟨k, hk, hkn⟩ := hex
          have hkj := index_unique keys hnd k j n hkn hn
          subst hkj
          exact h1 k hk n hkn
        · have hno : ∀ k ∈ rest, keys[k]? ≠ some n := fun k hk hkn => hex ⟨k, hk, hkn⟩
          rw [h2 n hno]
          have hkey : keys[j] = n := by
            rw [List.getElem?_eq_getElem hik] at hn
            exact Option.some.inj hn
          rw [← hkey, AList.lookup_insert, List.getElem?_eq_getElem hip]
      · exact h1 j h n hn
    · intro n hno
      rw [h2 n (fun k hk => hno k (List.mem_cons_of_mem _ hk))]
      apply AList.lookup_insert_ne
      intro hn
      apply hno i (List.mem_cons_self _ _)
      rw [List.getElem?_eq_getElem hik, hn]

/-- C10: in a store whose witness holds one proof per package, for requested
names that are all packages of the store, every requested name has a
position i in the sorted names, `TimestampProof` returns `Proofs[i]` for
it (found by the linear scan), `TimestampProofs` returns a map that holds
`Proofs[i]` under it (found by binary search), and the map has entries for
the requested names only. -/
theorem timestampProof_agrees (s : Service) (t : Timestamp) (names : List String)
    (ht : s.Storage.Timestamp = some t)
    (hlen : t.Proofs.length = (getOrderedPackageNames s).length)
    (hall : ∀ n ∈ names, n ∈ s.Storage.SwupChains) :
    ∃ proofs, TimestampProofs s names = .ok (.ok proofs) ∧
      (∀ n : String, n ∈ proofs ↔ n ∈ names) ∧
      ∀ name ∈ names, ∃ (i : Nat) (pr : Proof), (getOrderedPackageNames s)[i]? = some name ∧
        t.Proofs[i]? = some pr ∧
        TimestampProof s name = .ok (.ok pr) ∧
        proofs.lookup name = some pr := by
  have hs := getOrderedPackageNames_strict s
  have hnd := getOrderedPackageNames_nodup s
  have hkeys : ∀ n ∈ names, n ∈ getOrderedPackageNames s :=
    fun n hn => (mem_getOrderedPackageNames s n).2 (hall n hn)
  obtain ⟨indexes, hidx, h1, h2⟩ := searchIndexes_ok _ hs names hkeys
  have hin : ∀ i ∈ indexes, i < (getOrderedPackageNames s).length ∧ i < t.Proofs.length := by
    intro i hi
    obtain ⟨n, _, hget⟩ := h1 i hi
    have := (List.getElem?_eq_some.1 hget).1
    omega
  obtain ⟨proofs, hrun, hp1, hp2⟩ := collectProofs_ok _ hnd t.Proofs indexes ∅ hin
  refine ⟨proofs, ?_, ?_, ?_⟩
  · simp only [TimestampProofs, hidx, ht, hrun]
  · intro n
    constructor
    · intro hn
      by_contra hnot
      have hno : ∀ i ∈ indexes, (getOrderedPackageNames s)[i]? ≠ some n := by
        intro i hi hget
        obtain ⟨m, hm, hget'⟩ := h1 i hi
        rw [hget] at hget'
        exact hnot (by rw [Option.some.inj hget']; exact hm)
      have hlook := hp2 n hno
      rw [AList.lookup_empty] at hlook
      exact (AList.lookup_eq_none.1 hlook) hn
    · intro hn
      obtain ⟨i, hi, hget⟩ := h2 n hn
      have hlook := hp1 i hi n hget
      rw [List.getElem?_eq_getElem (hin i hi).2] at hlook
      exact AList.lookup_isSome.1 (by rw [hlook]; rfl)
  · intro name hname
    obtain ⟨i, hi, hget⟩ := h2 name hname
    have hip := (hin i hi).2
    refine ⟨i, t.Proofs[i], hget, List.getElem?_eq_getElem hip, ?_, ?_⟩
    · obtain ⟨j, hfind, hget'⟩ := findName_of_mem name _ 0 (hkeys name hname)
      have hji := index_unique _ hnd j i name hget' hget
      subst hji
      simp only [Nat.zero_add] at hfind
      have hnlt : ¬ t.Proofs.length < j := by omega
      simp only [TimestampProof, hfind, ht, hnlt, if_false, index_natCast,
        List.getElem?_eq_getElem hip]
    · rw [hp1 i hi name hget, List.getElem?_eq_getElem hip]

/-- Witness of C10 on the sample store, requesting libc and bash. -/
theorem timestampProof_agrees_witness :
    ∃ proofs, TimestampProofs sampleService ["libc", "bash"] = .ok (.ok proofs) ∧
      (∀ n : String, n ∈ proofs ↔ n ∈ ["libc", "bash"]) ∧
      ∀ name ∈ ["libc", "bash"], ∃ (i : Nat) (pr : Proof),
        (getOrderedPackageNames sampleService)[i]? = some name ∧
        ([[[1]], [[2]], [[3]]] : List Proof)[i]? = some pr ∧
        TimestampProof sampleService name = .ok (.ok pr) ∧
        proofs.lookup name = some pr :=
  timestampProof_agrees sampleService ⟨1700000000, [9], [8], [[[1]], [[2]], [[3]]]⟩
    ["libc", "bash"] rfl (by decide) (by decide)

/-! ## Unknown package names -/

/-- The scan of `TimestampProof` finds nothing for a string outside the
slice. -/
theorem findName_of_not_mem (name : String) (keys : List String) (off : Nat)
    (hmem : name ∉ keys) : findName name keys off = none := by
  induction keys generalizing off with
  | nil => rfl
  | cons k rest ih =>
    rw [findName]
    have hk : ¬ k = name := fun h => hmem (by rw [h]; exact List.mem_cons_self _ _)
    simp only [hk, if_false]
    exact ih (off + 1) (fun h => hmem (List.mem_cons_of_mem _ h))

/-- For a name that is not a package of the store `TimestampProof` returns
the client error, with or without a witness. -/
theorem TimestampProof_unknown (s : Service) (name : String)
    (hnot : name ∉ s.Storage.SwupChains) :
    TimestampProof s name = .ok (.error noPackageError) := by
  have hmem : name ∉ getOrderedPackageNames s :=
    fun h => hnot ((mem_getOrderedPackageNames s name).1 h)
  simp only [TimestampProof, findName_of_not_mem name _ 0 hmem]

/-- Binary search stays within the interval it is given. -/
theorem searchLoop_bounds (f : Nat → Bool) (fuel i j : Nat) (hij : i ≤ j) :
    i ≤ searchLoop f fuel i j ∧ searchLoop f fuel i j ≤ j := by
  induction fuel generalizing i j with
  | zero => exact ⟨le_refl _, hij⟩
  | succ fuel ih =>
    rw [searchLoop]
    by_cases hlt : i < j
    · simp only [hlt, if_true]
      cases f ((i + j) / 2) with
      | false =>
        simp only [Bool.not_false, if_true]
        have := ih ((i + j) / 2 + 1) j (by omega)
        omega
      | true =>
        simp only [Bool.not_true, Bool.false_eq_true, if_false]
        have := ih i ((i + j) / 2) (by omega)
        omega
    · simp only [hlt, if_false]
      exact ⟨le_refl _, hij⟩

/-- When every string of the slice is below `name`, `SearchStrings` returns
the length of the slice. -/
theorem SearchStrings_of_all_lt (keys : List String) (name : String)
    (hall : ∀ k ∈ keys, strLT k name) : SearchStrings keys name = keys.length := by
  have hval : ∀ k : Nat, (match keys[k]? with
      | some key => decide (strLE name key)
      | none => false) = false := by
    intro k
    cases hk : keys[k]? with
    | none => rfl
    | some key =>
      have hlt := hall key (List.getElem?_mem hk)
      have hnle : ¬ strLE name key := not_le_of_lt hlt
      simp [hnle]
  have hspec := searchLoop_spec
    (fun k => match keys[k]? with
      | some key => decide (strLE name key)
      | none => false) keys.length
    (by
      intro a b _ _ ha
      have := hval a
      simp only at ha this
      rw [this] at ha
      exact absurd ha (by decide))
    keys.length 0 keys.length (Nat.zero_le _) (le_refl _) (by omega)
    (fun k hk => absurd hk (Nat.not_lt_zero k)) (fun k hk hkn => absurd hkn (by omega))
  have hb := searchLoop_bounds
    (fun k => match keys[k]? with
      | some key => decide (strLE name key)
      | none => false) keys.length 0 keys.length (Nat.zero_le _)
  unfold SearchStrings Search
  by_contra hne
  have hlt : searchLoop (fun k => match keys[k]? with
      | some key => decide (strLE name key)
      | none => false) keys.length 0 keys.length < keys.length := by omega
  have h1 := hspec.2 _ (le_refl _) hlt
  have h2 := hval (searchLoop (fun k => match keys[k]? with
      | some key => decide (strLE name key)
      | none => false) keys.length 0 keys.length)
  simp only at h1 h2
  rw [h2] at h1
  exact absurd h1 (by decide)

/-- For a requested name above every package name of the store (any name
when the store is empty) `TimestampProofs` indexes the name slice at its
length and panics. -/
theorem TimestampProofs_above_all (s : Service) (name : String) (rest : List String)
    (hall : ∀ k ∈ s.Storage.SwupChains.keys, strLT k name) :
    TimestampProofs s (name :: rest) = .error .indexOutOfRange := by
  have hall' : ∀ k ∈ getOrderedPackageNames s, strLT k name :=
    fun k hk => hall k (AList.mem_keys.1 ((mem_getOrderedPackageNames s k).1 hk))
  have hsearch := SearchStrings_of_all_lt _ name hall'
  simp only [TimestampProofs, searchIndexes, hsearch, index_natCast]
  simp

/-- C11 (the code at the failing inputs): in the store holding bash, libc
and zlib, `TimestampProof` returns the client error for the unknown names
aaa, cat and zsh, and `TimestampProofs` returns it for aaa and cat; for zsh,
which sorts after every stored name, and for any name on the empty store,
`TimestampProofs` fails with an out-of-range index. -/
theorem TimestampProofs_unknown_last_faults :
    TimestampProof sampleService "aaa" = .ok (.error noPackageError) ∧
      TimestampProof sampleService "cat" = .ok (.error noPackageError) ∧
      TimestampProof sampleService "zsh" = .ok (.error noPackageError) ∧
      TimestampProof (emptyService Hour) "libc" = .ok (.error noPackageError) ∧
      TimestampProofs sampleService ["aaa"] = .ok (.error noPackageError) ∧
      TimestampProofs sampleService ["cat"] = .ok (.error noPackageError) ∧
      TimestampProofs sampleService ["zsh"] = .error .indexOutOfRange ∧
      TimestampProofs sampleService ["libc", "zsh"] = .error .indexOutOfRange ∧
      TimestampProofs (emptyService Hour) ["libc"] = .error .indexOutOfRange :=
  ⟨by decide, by decide, by decide, by decide, by decide, by decide, by decide, by decide,
    by decide⟩

/-! ## Storing chains -/

/-- Genesis entry after one call: an entry that exists stays, a missing one
is set when the call is for that name. -/
theorem PropagateSkipBlock_genesis_lookup (cs : Service) (sc : SwupChain) (n : String) :
    (PropagateSkipBlock cs (some sc)).Storage.SwupChainsGenesis.lookup n =
      match cs.Storage.SwupChainsGenesis.lookup n with
      | some g => some g
      | none => if sc.Release.Policy.Name = n then some sc else none := by
  simp only [PropagateSkipBlock]
  by_cases hmem : sc.Release.Policy.Name ∈ cs.Storage.SwupChainsGenesis
  · simp only [hmem, if_true]
    cases hl : cs.Storage.SwupChainsGenesis.lookup n with
    | some g => rfl
    | none =>
      have hn : ¬ sc.Release.Policy.Name = n := by
        intro h
        rw [h] at hmem
        exact (AList.lookup_eq_none.1 hl) hmem
      simp [hn]
  · simp only [hmem, if_false]
    by_cases hn : sc.Release.Policy.Name = n
    · subst hn
      rw [AList.lookup_insert, AList.lookup_eq_none.2 hmem]
      simp
    · rw [AList.lookup_insert_ne (fun h => hn h.symm)]
      cases cs.Storage.SwupChainsGenesis.lookup n <;> simp [hn]

/-- Head entry after one call: the chain of the call under its name, the old
entry under every other name. -/
theorem PropagateSkipBlock_head_lookup (cs : Service) (sc : SwupChain) (n : String) :
    (PropagateSkipBlock cs (some sc)).Storage.SwupChains.lookup n =
      if sc.Release.Policy.Name = n then some sc else cs.Storage.SwupChains.lookup n := by
  simp only [PropagateSkipBlock]
  by_cases hn : sc.Release.Policy.Name = n
  · subst hn
    simp [AList.lookup_insert]
  · rw [AList.lookup_insert_ne (fun h => hn h.symm)]
    simp [hn]

/-- The chains stored under a name, one message further. -/
theorem chainsFor_cons (n : String) (m : Option SwupChain) (rest : List (Option SwupChain)) :
    chainsFor n (m :: rest) =
      (match m with
        | some sc => if sc.Release.Policy.Name = n then [sc] else []
        | none => []) ++ chainsFor n rest := by
  cases m with
  | none => simp [chainsFor]
  | some sc =>
    by_cases hn : sc.Release.Policy.Name = n
    · simp [chainsFor, List.filter_cons, hn]
    · simp [chainsFor, List.filter_cons, hn]

/-- Genesis entry after a sequence of calls: the entry held before, else the
first chain propagated under the name. -/
theorem propagateAll_genesis_lookup (cs : Service) (msgs : List (Option SwupChain))
    (n : String) :
    (propagateAll cs msgs).Storage.SwupChainsGenesis.lookup n =
      match cs.Storage.SwupChainsGenesis.lookup n with
      | some g => some g
      | none => (chainsFor n msgs).head? := by
  induction msgs generalizing cs with
  | nil => cases h : cs.Storage.SwupChainsGenesis.lookup n <;> simp [propagateAll, chainsFor, h]
  | cons m rest ih =>
    have hstep : propagateAll cs (m :: rest) = propagateAll (PropagateSkipBlock cs m) rest := rfl
    rw [hstep, ih, chainsFor_cons]
    cases m with
    | none => simp [PropagateSkipBlock]
    | some sc =>
      rw [PropagateSkipBlock_genesis_lookup]
      cases cs.Storage.SwupChainsGenesis.lookup n with
      | some g => rfl
      | none =>
        by_cases hn : sc.Release.Policy.Name = n
        · simp [hn]
        · simp [hn]

/-- Head entry after a sequence of calls: the last chain propagated under
the name, else the entry held before. -/
theorem propagateAll_head_lookup (cs : Service) (msgs : List (Option SwupChain))
    (n : String) :
    (propagateAll cs msgs).Storage.SwupChains.lookup n =
      match (chainsFor n msgs).getLast? with
      | some c => some c
      | none => cs.Storage.SwupChains.lookup n := by
  induction msgs generalizing cs with
  | nil => simp [propagateAll, chainsFor]
  | cons m rest ih =>
    have hstep : propagateAll cs (m :: rest) = propagateAll (PropagateSkipBlock cs m) rest := rfl
    rw [hstep, ih, chainsFor_cons]
    cases hrest : (chainsFor n rest).getLast? with
    | some c =>
      have hne : chainsFor n rest ≠ [] := by
        intro h
        rw [h] at hrest
        simp at hrest
      rw [List.getLast?_append_of_ne_nil _ hne, hrest]
    | none =>
      have hnil : chainsFor n rest = [] := List.getLast?_eq_none_iff.1 hrest
      rw [hnil, List.append_nil]
      cases m with
      | none => simp [PropagateSkipBlock]
      | some sc =>
        rw [PropagateSkipBlock_head_lookup]
        by_cases hn : sc.Release.Policy.Name = n
        · simp [hn]
        · simp [hn]

/-- A name has an entry exactly when its lookup succeeds. -/
theorem mem_iff_lookup_isSome (m : ChainMap) (n : String) : n ∈ m ↔ (m.lookup n).isSome = true :=
  AList.lookup_isSome.symm

/-- C16: after any sequence of `PropagateSkipBlock` calls from the empty
store, the names with a genesis entry are the names with a current head; the
genesis entry of a name is the first chain propagated under it and the head
the last one; further calls remove no entry and do not replace a genesis
entry; and a call for one package leaves the entries of every other name
unchanged. -/
theorem propagate_store_invariants (rt : Int) (msgs : List (Option SwupChain)) :
    (∀ n : String, n ∈ (propagateAll (emptyService rt) msgs).Storage.SwupChainsGenesis ↔
        n ∈ (propagateAll (emptyService rt) msgs).Storage.SwupChains) ∧
      (∀ n : String, (propagateAll (emptyService rt) msgs).Storage.SwupChainsGenesis.lookup n =
        (chainsFor n msgs).head?) ∧
      (∀ n : String, (propagateAll (emptyService rt) msgs).Storage.SwupChains.lookup n =
        (chainsFor n msgs).getLast?) ∧
      (∀ (more : List (Option SwupChain)) (n : String),
        n ∈ (propagateAll (emptyService rt) msgs).Storage.SwupChains →
          n ∈ (propagateAll (emptyService rt) (msgs ++ more)).Storage.SwupChains ∧
          n ∈ (propagateAll (emptyService rt) (msgs ++ more)).Storage.SwupChainsGenesis ∧
          (propagateAll (emptyService rt) (msgs ++ more)).Storage.SwupChainsGenesis.lookup n =
            (propagateAll (emptyService rt) msgs).Storage.SwupChainsGenesis.lookup n) ∧
      (∀ (cs : Service) (sc : SwupChain) (n : String), n ≠ sc.Release.Policy.Name →
        (PropagateSkipBlock cs (some sc)).Storage.SwupChainsGenesis.lookup n =
            cs.Storage.SwupChainsGenesis.lookup n ∧
          (PropagateSkipBlock cs (some sc)).Storage.SwupChains.lookup n =
            cs.Storage.SwupChains.lookup n) := by
  have hgen : ∀ n : String,
      (propagateAll (emptyService rt) msgs).Storage.SwupChainsGenesis.lookup n =
        (chainsFor n msgs).head? := by
    intro n
    rw [propagateAll_genesis_lookup]
    simp [emptyService, AList.lookup_empty]
  have hhead : ∀ n : String,
      (propagateAll (emptyService rt) msgs).Storage.SwupChains.lookup n =
        (chainsFor n msgs).getLast? := by
    intro n
    rw [propagateAll_head_lookup]
    cases (chainsFor n msgs).getLast? <;> simp [emptyService, AList.lookup_empty]
  have hsame : ∀ n : String,
      n ∈ (propagateAll (emptyService rt) msgs).Storage.SwupChainsGenesis ↔
        n ∈ (propagateAll (emptyService rt) msgs).Storage.SwupChains := by
    intro n
    rw [mem_iff_lookup_isSome, mem_iff_lookup_isSome, hgen, hhead]
    cases chainsFor n msgs with
    | nil => simp
    | cons c cs =>
      have hne : (c :: cs) ≠ [] := List.cons_ne_nil _ _
      rw [List.getLast?_eq_getLast _ hne]
      simp
  refine ⟨hsame, hgen, hhead, ?_, ?_⟩
  · intro more n hn
    have hsplit : propagateAll (emptyService rt) (msgs ++ more) =
        propagateAll (propagateAll (emptyService rt) msgs) more := by
      simp [propagateAll, List.foldl_append]
    have hg : n ∈ (propagateAll (emptyService rt) msgs).Storage.SwupChainsGenesis :=
      (hsame n).2 hn
    obtain ⟨g, hgl⟩ := Option.isSome_iff_exists.1 ((mem_iff_lookup_isSome _ n).1 hg)
    obtain ⟨c, hcl⟩ := Option.isSome_iff_exists.1 ((mem_iff_lookup_isSome _ n).1 hn)
    have hg' : (propagateAll (emptyService rt) (msgs ++ more)).Storage.SwupChainsGenesis.lookup n
        = some g := by
      rw [hsplit, propagateAll_genesis_lookup, hgl]
    refine ⟨?_, ?_, ?_⟩
    · rw [mem_iff_lookup_isSome, hsplit, propagateAll_head_lookup, hcl]
      cases (chainsFor n more).getLast? <;> simp
    · rw [mem_iff_lookup_isSome, hg']
      rfl
    · rw [hg', hgl]
  · intro cs sc n hne
    have hn : ¬ sc.Release.Policy.Name = n := fun h => hne h.symm
    rw [PropagateSkipBlock_genesis_lookup, PropagateSkipBlock_head_lookup]
    constructor
    · cases cs.Storage.SwupChainsGenesis.lookup n <;> simp [hn]
    · simp [hn]

/-! ## Chain lookups -/

/-- The loop of `LatestBlocks` when every lookup succeeds: the chains longer
than one block are appended in request order, with their lengths. -/
theorem latestBlocksLoop_ok (getUpdateChain : UpdateChainLookup) (cs : Service) (t : Timestamp)
    (hwit : cs.Storage.Timestamp = some t) (ids : List Bytes)
    (hok : ∀ id ∈ ids, ∃ u, getUpdateChain cs.Storage.Root id = .ok u)
    (acc : LatestBlocksRetInternal) :
    ∃ w, latestBlocksLoop getUpdateChain cs ids acc =
      .ok ⟨w,
        acc.Updates ++ ((ids.map (chainFrom getUpdateChain cs)).filter
          (fun c => decide (1 < c.length))).flatten,
        acc.Lengths ++ ((ids.map (chainFrom getUpdateChain cs)).filter
          (fun c => decide (1 < c.length))).map (fun c => (c.length : Int))⟩ := by
  induction ids generalizing acc with
  | nil => exact ⟨acc.Timestamp, by simp [latestBlocksLoop]⟩
  | cons id rest ih =>
    obtain ⟨u, hu⟩ := hok id (List.mem_cons_self _ _)
    have hrest : ∀ id' ∈ rest, ∃ u, getUpdateChain cs.Storage.Root id' = .ok u :=
      fun id' h => hok id' (List.mem_cons_of_mem _ h)
    have hchain : chainFrom getUpdateChain cs id = u := by simp [chainFrom, hu]
    rw [latestBlocksLoop]
    simp only [LatestBlock, hu, hwit, List.map_cons, hchain]
    by_cases hlen : 1 < u.length
    · have hgt : u.length > 1 := hlen
      obtain ⟨w, hw⟩ := ih hrest
        ⟨if acc.Timestamp.isNone then some t else acc.Timestamp, acc.Updates ++ u,
          acc.Lengths ++ [(u.length : Int)]⟩
      refine ⟨w, ?_⟩
      simp only [hgt, if_true, hw, List.filter_cons, hlen, decide_True, List.flatten_cons,
        List.map_cons, List.append_assoc, List.singleton_append]
    · have hgt : ¬ u.length > 1 := hlen
      obtain ⟨w, hw⟩ := ih hrest acc
      refine ⟨w, ?_⟩
      simp only [hgt, if_false, hw, List.filter_cons, hlen, decide_False]
      simp

/-- Sum of the lengths of the chains is the length of their concatenation. -/
theorem sum_lengths_eq_length_flatten (chains : List (List SkipBlock)) :
    (chains.map (fun c => (c.length : Int))).sum = ((chains.flatten).length : Int) := by
  induction chains with
  | nil => rfl
  | cons c rest ih =>
    simp only [List.map_cons, List.sum_cons, List.flatten_cons, List.length_append, ih]
    push_cast
    rfl

/-- C15 (as amended): when a witness is stored and the lookup of every
requested id succeeds, `LatestBlocks` returns the concatenation, in request
order, of the chains that have more than one block, with one length for each
of those chains; the lengths sum to the number of returned blocks, there are
at most as many lengths as ids, and as many exactly when every requested id
has a chain of more than one block. -/
theorem LatestBlocks_lengths (getUpdateChain : UpdateChainLookup) (cs : Service)
    (t : Timestamp) (ids : List Bytes) (hwit : cs.Storage.Timestamp = some t)
    (hok : ∀ id ∈ ids, ∃ u, getUpdateChain cs.Storage.Root id = .ok u) :
    ∃ ret, LatestBlocks getUpdateChain cs ids = .ok ret ∧
      ret.Updates = ((ids.map (chainFrom getUpdateChain cs)).filter
        (fun c => decide (1 < c.length))).flatten ∧
      ret.Lengths = ((ids.map (chainFrom getUpdateChain cs)).filter
        (fun c => decide (1 < c.length))).map (fun c => (c.length : Int)) ∧
      ret.Lengths.sum = (ret.Updates.length : Int) ∧
      ret.Lengths.length ≤ ids.length ∧
      (ret.Lengths.length = ids.length ↔
        ∀ id ∈ ids, 1 < (chainFrom getUpdateChain cs id).length) := by
  obtain ⟨w, hw⟩ := latestBlocksLoop_ok getUpdateChain cs t hwit ids hok ⟨none, [], []⟩
  simp only [List.nil_append] at hw
  refine ⟨_, hw, rfl, rfl, sum_lengths_eq_length_flatten _, ?_, ?_⟩
  · simp only [List.length_map]
    exact (List.length_filter_le _ _).trans (by simp)
  · simp only [List.length_map]
    constructor
    · intro h id hid
      have hall := (List.filter_length_eq_length).1
        (show ((ids.map (chainFrom getUpdateChain cs)).filter
          (fun c => decide (1 < c.length))).length =
            (ids.map (chainFrom getUpdateChain cs)).length by simpa using h)
      have := hall _ (List.mem_map_of_mem _ hid)
      simpa using this
    · intro h
      have hfil : (ids.map (chainFrom getUpdateChain cs)).filter
          (fun c => decide (1 < c.length)) = ids.map (chainFrom getUpdateChain cs) := by
        apply List.filter_eq_self.2
        intro c hc
        obtain ⟨id, hid, rfl⟩ := List.mem_map.1 hc
        simpa using h id hid
      rw [hfil, List.length_map]

/-- Witness of C15 (as amended): the three sample blocks requested. -/
theorem LatestBlocks_lengths_witness :
    ∃ ret, LatestBlocks sampleLookup updatedService [[1], [2], [3]] = .ok ret ∧
      ret.Updates = (([[1], [2], [3]].map (chainFrom sampleLookup updatedService)).filter
        (fun c => decide (1 < c.length))).flatten ∧
      ret.Lengths = (([[1], [2], [3]].map (chainFrom sampleLookup updatedService)).filter
        (fun c => decide (1 < c.length))).map (fun c => (c.length : Int)) ∧
      ret.Lengths.sum = (ret.Updates.length : Int) ∧
      ret.Lengths.length ≤ ([[1], [2], [3]] : List Bytes).length ∧
      (ret.Lengths.length = ([[1], [2], [3]] : List Bytes).length ↔
        ∀ id ∈ ([[1], [2], [3]] : List Bytes),
          1 < (chainFrom sampleLookup updatedService id).length) :=
  LatestBlocks_lengths sampleLookup updatedService sampleWitness [[1], [2], [3]] rfl
    (fun id hid => by
      simp only [List.mem_cons, List.mem_singleton, List.not_mem_nil, or_false] at hid
      rcases hid with h | h | h <;> subst h <;> exact ⟨_, rfl⟩)

/-- Counterexample to C15 as stated: block 2 is the head of the libc chain
and its lookup succeeds with the one-block chain; requested alone it yields
no length and no block, and requested with blocks 1 and 3 the three ids
yield one length. -/
theorem LatestBlocks_skips_head :
    LatestBlock sampleLookup updatedService [2] = .ok ⟨sampleWitness, [libcUpdate.Data]⟩ ∧
      LatestBlocks sampleLookup updatedService [[2]] = .ok ⟨none, [], []⟩ ∧
      LatestBlocks sampleLookup updatedService [[1], [2], [3]] =
        .ok ⟨some sampleWitness, [libcGenesis.Data, libcUpdate.Data], [2]⟩ :=
  ⟨by decide, by decide, by decide⟩

/-! ## Publishing a witness -/

/-- C14 (as amended): every call of `updateTimestampInfo` replaces the
timestamp, root, signature and proofs of the stored witness together by the
published ones, whatever timestamp was stored; after a sequence of
publications the stored witness is the last one published; and the stored
timestamp does not decrease in a call exactly when the publication is not
older than the stored witness. The chain store is not touched. -/
theorem updateTimestampInfo_replaces :
    (∀ (s : Service) (p : Publication),
        (updateTimestampInfo s p.rootID p.proofs p.ts p.sig).Storage.Timestamp =
          some ⟨p.ts, p.rootID, p.sig, p.proofs⟩) ∧
      (∀ (s : Service) (pubs : List Publication) (p : Publication),
        (publishAll s (pubs ++ [p])).Storage.Timestamp =
          some ⟨p.ts, p.rootID, p.sig, p.proofs⟩) ∧
      (∀ (s : Service) (t : Timestamp) (p : Publication), s.Storage.Timestamp = some t →
        ((∃ t', (updateTimestampInfo s p.rootID p.proofs p.ts p.sig).Storage.Timestamp =
            some t' ∧ t.Timestamp ≤ t'.Timestamp) ↔ t.Timestamp ≤ p.ts)) ∧
      (∀ (s : Service) (p : Publication),
        (updateTimestampInfo s p.rootID p.proofs p.ts p.sig).Storage.SwupChains =
            s.Storage.SwupChains ∧
          (updateTimestampInfo s p.rootID p.proofs p.ts p.sig).Storage.SwupChainsGenesis =
            s.Storage.SwupChainsGenesis) := by
  have hone : ∀ (s : Service) (p : Publication),
      (updateTimestampInfo s p.rootID p.proofs p.ts p.sig).Storage.Timestamp =
        some ⟨p.ts, p.rootID, p.sig, p.proofs⟩ := by
    intro s p
    simp [updateTimestampInfo]
  refine ⟨hone, ?_, ?_, ?_⟩
  · intro s pubs p
    simp only [publishAll, List.foldl_append, List.foldl_cons, List.foldl_nil]
    exact hone _ p
  · intro s t p _
    rw [hone]
    constructor
    · rintro ⟨t', ht', hle⟩
      have := Option.some.inj ht'
      rw [← this] at hle
      exact hle
    · intro hle
      exact ⟨_, rfl, hle⟩
  · intro s p
    exact ⟨rfl, rfl⟩

/-- Counterexample to C14 as stated: the sample store holds a witness
stamped 1700000000; publishing one stamped 1600000000 replaces it, so the
stored timestamp decreases. -/
theorem updateTimestampInfo_accepts_older :
    (sampleService.Storage.Timestamp.map (fun t => t.Timestamp)) = some 1700000000 ∧
      (updateTimestampInfo sampleService [7] [] 1600000000 [6]).Storage.Timestamp =
        some ⟨1600000000, [7], [6], []⟩ :=
  ⟨by decide, by decide⟩

/-- The function `timestamp` panics in `cosiSign` when the service has no
root block, and otherwise publishes the Merkle root and proofs of the
current heads under the time it is given, signed by the signing round. -/
theorem timestamp_publishes (proofTree : List HashID → HashID × List Proof)
    (signRound : SkipBlock → Bytes → Except Fault Bytes) (s : Service) (time : Int) :
    (s.Storage.Root = none → timestamp proofTree signRound s time = .error .nilDereference) ∧
      (∀ (root : SkipBlock) (sig : Bytes), s.Storage.Root = some root →
        signRound root (MarshalPair (proofTree (headsInNameOrder s)).1 time) = .ok sig →
        timestamp proofTree signRound s time =
          .ok (updateTimestampInfo s (proofTree (headsInNameOrder s)).1
            (proofTree (headsInNameOrder s)).2 time sig)) := by
  constructor
  · intro hroot
    simp only [timestamp, orderedLatestSkipblocksID_ok, cosiSign, hroot]
  · intro root sig hroot hsig
    simp only [timestamp, orderedLatestSkipblocksID_ok, cosiSign, hroot, hsig]

/-! ## Release ingestion -/

/-- The key loop never indexes `policyKeys` out of range: it adds one armored
key per round and leaves `policyKeys` long enough for every key added. -/
theorem collectKeys_ok {Key : Type} (lib : IngestLib Key) (key : Key) (n k : Nat)
    (policyKeys : List Key) (keys : List String) (hk : k ≤ policyKeys.length) :
    ∃ pks pubs, collectKeys lib key n k policyKeys keys = .ok (pks, pubs) ∧
      pubs.length = keys.length + n ∧ k + n ≤ pks.length := by
  induction n generalizing k policyKeys keys with
  | zero => exact ⟨policyKeys, keys, rfl, rfl, hk⟩
  | succ n ih =>
    rw [collectKeys]
    simp only [index_natCast]
    have hlt : k < (if k ≥ policyKeys.length then policyKeys ++ [key] else policyKeys).length := by
      split
      · rw [List.length_append, List.length_singleton]
        omega
      · omega
    rw [List.getElem?_eq_getElem hlt]
    obtain ⟨pks, pubs, hrun, hlen, hbound⟩ := ih (k + 1) _ (keys ++ [lib.ArmorPublic _]) hlt
    refine ⟨pks, pubs, hrun, ?_, by omega⟩
    rw [hlen, List.length_append, List.length_singleton]
    omega

/-- The signing loop yields one signature per round when signing succeeds
and `policyKeys` is long enough. -/
theorem collectSignatures_ok {Key : Type} (lib : IngestLib Key) (policyKeys : List Key)
    (policyBin : Bytes) (hs : ∀ (k : Key) (bin : Bytes), lib.Sign k bin ≠ none) (n i : Nat)
    (sigs : List String) (hi : i + n ≤ policyKeys.length) :
    ∃ out, collectSignatures lib policyKeys policyBin n i sigs = .ok (some out) ∧
      out.length = sigs.length + n := by
  induction n generalizing i sigs with
  | zero => exact ⟨sigs, rfl, rfl⟩
  | succ n ih =>
    rw [collectSignatures]
    have hlt : i < policyKeys.length := by omega
    simp only [index_natCast, List.getElem?_eq_getElem hlt]
    cases hsig : lib.Sign policyKeys[i] policyBin with
    | none => exact absurd hsig (hs _ _)
    | some sig =>
      obtain ⟨out, hrun, hlen⟩ := ih (i + 1) (sigs ++ [sig]) (by omega)
      refine ⟨out, hrun, ?_⟩
      rw [hlen, List.length_append, List.length_singleton]
      omega

/-- Concrete runs of `NewDebianRelease`: a malformed size gives size 0, a
five-field line and a first field that is no timestamp give errors. -/
theorem NewDebianRelease_examples :
    (NewDebianRelease sampleLib "K" [] "20170101120000,libc,1.0,H1,a b c,xx" "" 1).toOption.bind
        (fun r => r.toOption.map (fun d => (d.1.BinariesSize, d.1.Binaries, d.1.Policy.Keys))) =
        some (0, ["a", "b", "c"], ["K"]) ∧
      NewDebianRelease sampleLib "K" [] "20170101120000,libc,1.0,H1,a b c" "" 1 =
        .ok (.error (.fieldCount "Should have five entries20170101120000,libc,1.0,H1,a b c")) ∧
      NewDebianRelease sampleLib "K" [] "yesterday,libc,1.0,H1,a b c,12" "" 1 =
        .ok (.error .timeParse) :=
  ⟨by decide, by decide, by decide⟩

end Swupdate
